import Mathlib

/-!
Shallow embedding of the value-axis tick-scale computation of
`src/js/models/axisModel.js` (tui.chart).

JavaScript numbers are modelled as exact rationals extended with `NaN` and
signed infinities (`JSN`).  The repository's arithmetic helpers
(`ne.util.addition`, `ne.util.mod`, ...) multiply their operands by a power of
ten, operate on the scaled values and divide back, precisely so that the
computation behaves like exact decimal arithmetic; in the exact rational model
this trick is the identity, so those helpers are modelled as the plain exact
operations (they live outside `src/` and are modelled from the spec, see the
doc comments below).
-/

-- Batteries marks the arithmetic on `Rat` `@[irreducible]`; the concrete
-- evaluations below need it to reduce.
attribute [local semireducible] Rat.add Rat.mul Rat.sub Rat.inv

/-- A JavaScript number: `NaN`, a signed infinity (`inf true` is `+∞`),
or an exact (rational) value.  `-0` is identified with `0`, which is sound
here because the source never distinguishes them (`===`, `<`, arithmetic and
truthiness agree on `0` and `-0`). -/
inductive JSN where
  | nan : JSN
  | inf : Bool → JSN
  | val : ℚ → JSN
deriving DecidableEq, Repr

/-- Truncation toward zero, the behaviour of JS `parseInt` on in-range
numbers and of the implicit truncation in the `%` operator. -/
def jsTrunc (q : ℚ) : ℤ := if q < 0 then -⌊-q⌋ else ⌊q⌋

namespace JSN

/-- JS unary minus. -/
def jneg : JSN → JSN
  | nan => nan
  | inf p => inf (!p)
  | val q => val (-q)

/-- JS `+` on numbers. -/
def jadd : JSN → JSN → JSN
  | nan, _ => nan
  | _, nan => nan
  | inf p, inf p' => if p = p' then inf p else nan
  | inf p, val _ => inf p
  | val _, inf p => inf p
  | val a, val b => val (a + b)

/-- JS binary `-` on numbers. -/
def jsub (a b : JSN) : JSN := jadd a (jneg b)

/-- JS `*` on numbers. -/
def jmul : JSN → JSN → JSN
  | nan, _ => nan
  | _, nan => nan
  | inf p, inf p' => inf (p = p')
  | inf p, val b => if b = 0 then nan else inf (if 0 < b then p else !p)
  | val a, inf p => if a = 0 then nan else inf (if 0 < a then p else !p)
  | val a, val b => val (a * b)

/-- JS `/` on numbers (division by zero gives a signed infinity, `0/0` gives
`NaN`; a zero divisor counts as `+0`). -/
def jdiv : JSN → JSN → JSN
  | nan, _ => nan
  | _, nan => nan
  | inf _, inf _ => nan
  | inf p, val b => if b < 0 then inf (!p) else inf p
  | val _, inf _ => val 0
  | val a, val b => if b = 0 then (if a = 0 then nan else if 0 < a then inf true else inf false) else val (a / b)

/-- JS `%` (remainder; sign follows the dividend, a finite number mod an
infinity is the dividend itself). -/
def jrem : JSN → JSN → JSN
  | nan, _ => nan
  | _, nan => nan
  | inf _, _ => nan
  | val a, inf _ => val a
  | val a, val b => if b = 0 then nan else val (a - b * (jsTrunc (a / b) : ℚ))

/-- JS `<` as a boolean (false whenever `NaN` is involved). -/
def jltB : JSN → JSN → Bool
  | nan, _ => false
  | _, nan => false
  | inf p, inf p' => !p && p'
  | inf p, val _ => !p
  | val _, inf p => p
  | val a, val b => decide (a < b)

/-- JS `<=` as a boolean (false whenever `NaN` is involved). -/
def jleB : JSN → JSN → Bool
  | nan, _ => false
  | _, nan => false
  | inf p, inf p' => !p || p'
  | inf p, val _ => !p
  | val _, inf p => p
  | val a, val b => decide (a ≤ b)

/-- JS `>`. -/
def jgtB (a b : JSN) : Bool := jltB b a

/-- JS `>=`. -/
def jgeB (a b : JSN) : Bool := jleB b a

/-- JS `===` on numbers (`NaN === NaN` is false). -/
def jeqB : JSN → JSN → Bool
  | val a, val b => decide (a = b)
  | inf p, inf p' => p = p'
  | _, _ => false

/-- JS truthiness of a number (`0` and `NaN` are falsy). -/
def jtruthy : JSN → Bool
  | nan => false
  | inf _ => true
  | val q => decide (q ≠ 0)

/-- JS `Math.abs`. -/
def jabs : JSN → JSN
  | nan => nan
  | inf _ => inf true
  | val q => val |q|

/-- JS `Math.floor`. -/
def jfloor : JSN → JSN
  | nan => nan
  | inf p => inf p
  | val q => val (⌊q⌋ : ℚ)

@[simp] theorem jneg_val (a : ℚ) : jneg (val a) = val (-a) := rfl
@[simp] theorem jadd_val (a b : ℚ) : jadd (val a) (val b) = val (a + b) := rfl
@[simp] theorem jsub_val (a b : ℚ) : jsub (val a) (val b) = val (a - b) := by
  simp [jsub, jadd, jneg, sub_eq_add_neg]
@[simp] theorem jmul_val (a b : ℚ) : jmul (val a) (val b) = val (a * b) := rfl
@[simp] theorem jltB_val (a b : ℚ) : jltB (val a) (val b) = decide (a < b) := rfl
@[simp] theorem jleB_val (a b : ℚ) : jleB (val a) (val b) = decide (a ≤ b) := rfl
@[simp] theorem jgtB_val (a b : ℚ) : jgtB (val a) (val b) = decide (b < a) := rfl
@[simp] theorem jgeB_val (a b : ℚ) : jgeB (val a) (val b) = decide (b ≤ a) := rfl
@[simp] theorem jeqB_val (a b : ℚ) : jeqB (val a) (val b) = decide (a = b) := rfl
@[simp] theorem jabs_val (a : ℚ) : jabs (val a) = val |a| := rfl
@[simp] theorem jfloor_val (a : ℚ) : jfloor (val a) = val (⌊a⌋ : ℚ) := rfl
@[simp] theorem jtruthy_val (a : ℚ) : jtruthy (val a) = decide (a ≠ 0) := rfl

theorem jdiv_val (a b : ℚ) (hb : b ≠ 0) : jdiv (val a) (val b) = val (a / b) := by
  simp [jdiv, hb]

theorem jrem_val (a b : ℚ) (hb : b ≠ 0) :
    jrem (val a) (val b) = val (a - b * (jsTrunc (a / b) : ℚ)) := by
  simp [jrem, hb]

end JSN

open JSN

/-- Largest exponent `k` with `p ^ k ∣ n` (for `2 ≤ p`, `1 ≤ n`), computed with
structural fuel (`n` itself is always enough fuel since `n` at least halves). -/
def pvAux : ℕ → ℕ → ℕ → ℕ
  | 0, _, _ => 0
  | f + 1, p, n => if 2 ≤ p ∧ 1 < n ∧ p ∣ n then pvAux f p (n / p) + 1 else 0

/-- Multiplicity of the prime `p` in `n`. -/
def pv (p n : ℕ) : ℕ := pvAux n p n

/-- Modelled from the spec: `ne.util.underPointLength` — the number of digits
after the decimal point of a number (glossary: decimal places of a step).
For a rational whose denominator is of the form `2^a * 5^b` this is the least
`k` with `q * 10^k` integral; other denominators cannot arise from finite
decimal inputs and are given the JS double print-width `17`. -/
def underPointLengthQ (q : ℚ) : ℕ :=
  let a := pv 2 q.den
  let b := pv 5 q.den
  if q.den = 2 ^ a * 5 ^ b then max a b else 17

/-- `ne.util.underPointLength` on a JS number (`NaN` and infinities print
without a decimal point, hence `0`). -/
def underPointLength : JSN → ℕ
  | JSN.nan => 0
  | JSN.inf _ => 0
  | JSN.val q => underPointLengthQ q

/-- Modelled from the spec: `ne.util.findMultipleNum(n)` — the power of ten
`10 ^ underPointLength n` used to rescale to integers (§4.3 step 6). -/
def findMultipleNum1 (a : JSN) : JSN := val ((10 : ℚ) ^ underPointLength a)

/-- Modelled from the spec: `ne.util.findMultipleNum(a, b)` for two arguments
(§4.1, MagnitudeNormalizer): `10` to the larger of the two decimal lengths. -/
def findMultipleNum2 (a b : JSN) : JSN :=
  val ((10 : ℚ) ^ max (underPointLength a) (underPointLength b))

/-- Modelled from the spec: `ne.util.addition` — floating-safe addition
(multiply by `10^k`, add, divide back); in exact rational arithmetic this is
plain addition. -/
def neAddition (a b : JSN) : JSN := jadd a b

/-- Modelled from the spec: `ne.util.subtraction` — floating-safe subtraction;
in exact rational arithmetic this is plain subtraction. -/
def neSubtraction (a b : JSN) : JSN := jsub a b

/-- Modelled from the spec: `ne.util.division` — floating-safe division;
in exact rational arithmetic this is plain division. -/
def neDivision (a b : JSN) : JSN := jdiv a b

/-- Modelled from the spec: `ne.util.mod` — floating-safe remainder; in exact
rational arithmetic the multiply-by-`10^k` trick reduces to the plain JS `%`. -/
def neMod (a b : JSN) : JSN := jrem a b

/-- Ascending arithmetic enumeration `start, start+step, ...` while `< stop`,
with structural fuel (kernel-friendly); `rangeAsc` supplies provably
sufficient fuel. -/
def rangeAscAux : ℕ → ℚ → ℚ → ℚ → List ℚ
  | 0, _, _, _ => []
  | f + 1, start, stop, step => if start < stop then start :: rangeAscAux f (start + step) stop step else []

/-- The ascending core of `ne.util.range`: all `start + k * step < stop`
(`k = 0, 1, ...`) for a positive `step`; empty for a non-positive `step`
(such calls do not occur: the JS helper defaults a falsy step to `1`). -/
def rangeAsc (start stop step : ℚ) : List ℚ :=
  if 0 < step then rangeAscAux (⌈(stop - start) / step⌉).toNat start stop step else []

/-- Modelled from the spec: `ne.util.range(start, stop, step)` — the JS
helper defaults a falsy (`0`/`undefined`) step to `1`, then repeatedly adds
`step` while the bound `start < stop` (after negating everything for a
negative step) holds; a `NaN` bound therefore yields `[]` immediately.
Infinite bounds (which would make the JS loop diverge) never reach this
helper in this development. -/
def neRange (start stop step : JSN) : List JSN :=
  let step' := if jtruthy step then step else val 1
  match start, stop, step' with
  | val a, val b, val s =>
      if s < 0 then (rangeAscAux (⌈(-b - -a) / -s⌉).toNat (-a) (-b) (-s)).map (fun x => val (-x))
      else (rangeAsc a b s).map val
  | _, _, _ => []

/-- Modelled from the spec: `ne.util.min` on a list of numbers (an empty list
gives `undefined`, which behaves like `NaN` in every later arithmetic step and
comparison, so it is conflated with `NaN` here). -/
def neMinL : List JSN → JSN
  | [] => nan
  | x :: xs => xs.foldl (fun m v => if jltB v m then v else m) x

/-- Modelled from the spec: `ne.util.max` on a list of numbers (empty list as
in `neMinL`). -/
def neMaxL : List JSN → JSN
  | [] => nan
  | x :: xs => xs.foldl (fun m v => if jgtB v m then v else m) x

/-- `{min, max}` scale object. -/
structure Scale where
  min : JSN
  max : JSN
deriving DecidableEq, Repr

/-- Axis options `{min, max, tickCount}` (absent field = JS `undefined`). -/
structure AxisOptions where
  min : Option JSN
  max : Option JSN
  tickCount : Option JSN
deriving DecidableEq, Repr

/-- A tick-info candidate `{scale, step, tickCount, labels}` (the source
builds the object without `labels` first and fills it in
`_minimizeTickScale`; here `labels` is simply `[]` until then). -/
structure TickInfo where
  scale : Scale
  step : JSN
  tickCount : JSN
  labels : List JSN
deriving DecidableEq, Repr

/-- Chart pixel dimension `{width, height}`. -/
structure ChartDimension where
  width : ℚ
  height : ℚ
deriving DecidableEq, Repr

/-- `MIN_PIXEL_STEP_SIZE` (axisModel.js line 16). -/
def MIN_PIXEL_STEP_SIZE : ℚ := 40
/-- `MAX_PIXEL_STEP_SIZE` (axisModel.js line 17). -/
def MAX_PIXEL_STEP_SIZE : ℚ := 60
/-- `CHART_TITLE_HEIGHT` (axisModel.js line 18). -/
def CHART_TITLE_HEIGHT : ℚ := 80
/-- `VERTICAL_AXIS_WIDTH` (axisModel.js line 19). -/
def VERTICAL_AXIS_WIDTH : ℚ := 90
/-- `LEGEND_WIDTH` (axisModel.js line 20). -/
def LEGEND_WIDTH : ℚ := 90

/-- `_getBaseSize` (axisModel.js lines 142-150). -/
def getBaseSize (isVertical : Bool) (d : ChartDimension) : ℚ :=
  if isVertical then d.height - CHART_TITLE_HEIGHT
  else d.width - VERTICAL_AXIS_WIDTH - LEGEND_WIDTH

/-- `_getCandidateTickCounts` (axisModel.js lines 158-164): tick counts from
`parseInt(baseSize/60)` up to (excluding) `parseInt(baseSize/40) + 1`. -/
def getCandidateTickCounts (isVertical : Bool) (d : ChartDimension) : List JSN :=
  let baseSize := getBaseSize isVertical d
  let start := jsTrunc (baseSize / MAX_PIXEL_STEP_SIZE)
  let stop := jsTrunc (baseSize / MIN_PIXEL_STEP_SIZE) + 1
  neRange (val (start : ℚ)) (val (stop : ℚ)) (val 1)

/-- `_getComparingValue` (axisModel.js lines 175-180). -/
def getComparingValue (scale : Scale) (step : JSN) (min max : JSN) : JSN :=
  let diffMax := jabs (jsub scale.max max)
  let diffMin := jabs (jsub min scale.min)
  let weight := val ((10 : ℚ) ^ underPointLength step)
  jmul (jadd diffMax diffMin) weight

/-- The fold of `_selectTickInfo` (axisModel.js lines 195-201): keep the
current best and replace it only on a strictly smaller comparing value. -/
def selectGo (min max : JSN) : TickInfo → JSN → List TickInfo → TickInfo
  | tickInfo, _, [] => tickInfo
  | tickInfo, minValue, info :: rest =>
      let compareValue := getComparingValue info.scale info.step min max
      if jgtB minValue compareValue then selectGo min max info compareValue rest
      else selectGo min max tickInfo minValue rest

/-- `_selectTickInfo` (axisModel.js lines 190-203); `candidates[0]` of an
empty list is `undefined` and dereferencing it throws, modelled as `none`. -/
def selectTickInfo (min max : JSN) : List TickInfo → Option TickInfo
  | [] => none
  | c :: rest => some (selectGo min max c (getComparingValue c.scale c.step min max) rest)

/-- Modelled from the spec: `Model.getScaleStep` (model.js, not under `src/`):
`step = (scale.max - scale.min) / (tickCount - 1)` (§4.3 step 4). -/
def getScaleStep (scale : Scale) (tickCount : JSN) : JSN :=
  jdiv (jsub scale.max scale.min) (jsub tickCount (val 1))

/-- One pass of the `[1, 2, 5, 10]` ladder loop of `_normalizeStep`
(axisModel.js lines 289-298): the chosen `standard` (`0` keeps the loop's
initial value, meaning `step < 1`). -/
def normalizeStandard (step : JSN) : JSN :=
  if jltB step (val 1) then val 0
  else if jltB step (val 2) then val 2
  else if jltB step (val 5) then val 5
  else val 10

/-- `_normalizeStep` (axisModel.js lines 281-307) with structural fuel: the
source recurses on `step * 10` while `step < 1`, which diverges (a JS
`RangeError`) for negative steps — modelled by fuel exhaustion (`none`).
`normalizeStep` supplies fuel that is provably sufficient for every
nonnegative rational step. -/
def normalizeStepAux : ℕ → JSN → Option JSN
  | 0, _ => none
  | f + 1, step =>
      if jeqB step (val 0) then some step
      else
        let standard := normalizeStandard step
        if jltB standard (val 1) then
          (normalizeStepAux f (jmul step (val 10))).map (fun n => jmul n (val (1 / 10)))
        else
          let m := neMod step standard
          some (neAddition step (if jgtB m (val 0) then jsub standard m else val 0))

/-- Fuel for `normalizeStepAux`: for `val q` with `q > 0` the recursion stops
after at most `q.den + 1` multiplications by ten. -/
def stepFuel : JSN → ℕ
  | JSN.val q => q.den + 2
  | _ => 1

/-- `_normalizeStep` (axisModel.js lines 281-307). -/
def normalizeStep (step : JSN) : Option JSN := normalizeStepAux (stepFuel step) step

/-- `_normalizeMin` (axisModel.js lines 316-326). -/
def normalizeMin (min step : JSN) : JSN :=
  let m := neMod min step
  if jeqB m (val 0) then min
  else neSubtraction min (if jgeB min (val 0) then m else jadd step m)

/-- `_calculateScale` (axisModel.js lines 336-356). -/
def calculateScale (min max : JSN) : Scale :=
  let saveMin := if jltB min (val 0) then min else val 0
  let max' := if jltB min (val 0) then jsub max min else max
  let min' := if jltB min (val 0) then val 0 else min
  let iodValue := jdiv (jsub max' min') (val 20)
  let scaleMax := jadd (jadd max' iodValue) saveMin
  let scaleMin :=
    if jgtB (jdiv max' (val 6)) min' then jadd (val 0) saveMin
    else jadd (jsub min' iodValue) saveMin
  ⟨scaleMin, scaleMax⟩

/-- `_makeLabelsFromScale` (axisModel.js lines 538-547). -/
def makeLabelsFromScale (scale : Scale) (step : JSN) : List JSN :=
  let multipleNum := findMultipleNum1 step
  let min := jmul scale.min multipleNum
  let max := jmul scale.max multipleNum
  let labels := neRange min (jadd max (val 1)) (jmul step multipleNum)
  labels.map (fun label => jdiv label multipleNum)

/-- The override substitution `scale.min = options.min || scale.min;
scale.max = options.max || scale.max` of `_makeTickInfo` (axisModel.js lines
447-448); note `||` ignores a falsy (`0`) override. -/
def applyOptions (scale : Scale) (options : AxisOptions) : Scale :=
  let jsOr : Option JSN → JSN → JSN := fun o d =>
    match o with
    | some v => if jtruthy v then v else d
    | none => d
  ⟨jsOr options.min scale.min, jsOr options.max scale.max⟩

/-- The body of the `ne.util.forEachArray` loop of `_minimizeTickScale`
(axisModel.js lines 376-393), with its early `return false` break; note the
source tests `isUndefinedMin` (not `isUndefinedMax`) in the `scale.max`
branch (line 389). -/
def minimizeLoop (userMin userMax : JSN) (options : AxisOptions)
    (step tickMin tickMax : JSN) : List JSN → Scale → Scale
  | [], scale => scale
  | tickIndex :: rest, scale =>
      let curStep := jmul step tickIndex
      let curMin := jadd tickMin curStep
      let curMax := jsub tickMax curStep
      if jleB userMin curMin && jgeB userMax curMax then scale
      else
        let isUndefinedMin := options.min.isNone
        let isUndefinedMax := options.max.isNone
        let scale1 :=
          if (isUndefinedMin && jgtB userMin curMin) ||
             (!isUndefinedMin && jgeB (options.min.getD nan) curMin) then
            { scale with min := curMin }
          else scale
        let scale2 :=
          if (isUndefinedMin && jltB userMax curMax) ||
             (!isUndefinedMax && jleB (options.max.getD nan) curMax) then
            { scale1 with max := curMax }
          else scale1
        minimizeLoop userMin userMax options step tickMin tickMax rest scale2

/-- `_minimizeTickScale` (axisModel.js lines 367-400). -/
def minimizeTickScale (userMin userMax : JSN) (tickInfo : TickInfo)
    (options : AxisOptions) : TickInfo :=
  let ticks := neRange (val 1) tickInfo.tickCount (val 1)
  let step := tickInfo.step
  let scale := minimizeLoop userMin userMax options step
    tickInfo.scale.min tickInfo.scale.max ticks tickInfo.scale
  let labels := makeLabelsFromScale scale step
  ⟨scale, step, val (labels.length : ℚ), labels⟩

/-- `_divideTickStep` (axisModel.js lines 409-421). -/
def divideTickStep (tickInfo : TickInfo) (orgTickCount : JSN) : TickInfo :=
  let step := tickInfo.step
  let scale := tickInfo.scale
  let tickCount := tickInfo.tickCount
  if jeqB (jrem step (val 2)) (val 0) && jtruthy (jrem tickCount (val 2)) &&
     jltB (jabs (jsub orgTickCount (jmul tickCount (val 2))))
          (jabs (jsub orgTickCount tickCount)) then
    let step := jdiv step (val 2)
    let labels := makeLabelsFromScale scale step
    ⟨scale, step, val (labels.length : ℚ), labels⟩
  else tickInfo

/-- Line 456 of `_makeTickInfo`:
`scale.max = ((scale.min * multipleNum) + (step * multipleNum * (tickCount - 1))) / multipleNum`
with `multipleNum = findMultipleNum(step)` from line 455. -/
def recomputeScaleMax (smin step tickCount : JSN) : JSN :=
  let multipleNum := findMultipleNum1 step
  jdiv (jadd (jmul smin multipleNum)
    (jmul (jmul step multipleNum) (jsub tickCount (val 1)))) multipleNum

/-- Lines 458-463 of `_makeTickInfo`: if the recomputed max falls short of
`orgScaleMax`, extend it upward by whole steps. -/
def extendScaleMax (orgScaleMax smax step : JSN) : JSN :=
  let diffMax := jsub orgScaleMax smax
  if jgtB diffMax (val 0) then
    let modDiff := jrem diffMax step
    let divideDiff := jfloor (jdiv diffMax step)
    jadd smax (jmul step (if jgtB modDiff (val 0) then jadd divideDiff (val 1) else divideDiff))
  else smax

/-- `_makeTickInfo` (axisModel.js lines 435-479); `isLineChart` stands for
`this.chartType === chartConst.CHART_TYPE_LINE`.  The only JS exception on
this path is the unbounded recursion of `_normalizeStep` on a negative step,
hence the `Option`. -/
def makeTickInfo (isLineChart : Bool) (tickCount min max userMin userMax : JSN)
    (isMinus : Bool) (options : AxisOptions) : Option TickInfo :=
  let scale0 := calculateScale min max
  let scale1 := if isMinus then Scale.mk (jneg scale0.max) (jneg scale0.min) else scale0
  let scale2 := applyOptions scale1 options
  let orgScaleMax := scale2.max
  let tmpStep := getScaleStep scale2 tickCount
  match normalizeStep tmpStep with
  | none => none
  | some step =>
      let smin := normalizeMin scale2.min step
      let smax := recomputeScaleMax smin step tickCount
      let smax2 := extendScaleMax orgScaleMax smax step
      let smax3 :=
        if options.max.isNone && jeqB smax2 userMax then jadd smax2 step else smax2
      let smin2 :=
        if (isLineChart || jgtB userMin (val 0)) && options.min.isNone &&
           jeqB smin userMin then jsub smin step
        else smin
      let tickInfo : TickInfo := ⟨⟨smin2, smax3⟩, step, tickCount, []⟩
      let tickInfo := minimizeTickScale userMin userMax tickInfo options
      some (divideTickStep tickInfo tickCount)

/-- `_getTickInfoCandidates` (axisModel.js lines 490-508); a thrown
`RangeError` in any `_makeTickInfo` call aborts the whole `map` (`none`). -/
def getTickInfoCandidates (isLineChart : Bool) (min max : JSN)
    (tickCounts : List JSN) (options : AxisOptions) : Option (List TickInfo) :=
  let userMin := min
  let userMax := max
  let isMinus := jltB min (val 0) && jleB max (val 0)
  let min' := if isMinus then jneg userMax else min
  let max' := if isMinus then jneg userMin else max
  tickCounts.mapM (fun tickCount =>
    makeTickInfo isLineChart tickCount min' max' userMin userMax isMinus options)

/-- The integer-type info `{min, max, options, divideNum}` of
`_makeIntegerTypeInfo` (axisModel.js lines 231-257). -/
structure IntegerTypeInfo where
  min : JSN
  max : JSN
  options : AxisOptions
  divideNum : JSN
deriving DecidableEq, Repr

/-- `_makeIntegerTypeInfo` (axisModel.js lines 231-257); note the fresh
`changeOptions` object carries only (truthy) `min`/`max`, not `tickCount`. -/
def makeIntegerTypeInfo (min max : JSN) (options : AxisOptions) : IntegerTypeInfo :=
  if jgeB (jabs min) (val 1) || jgeB (jabs max) (val 1) then
    ⟨min, max, options, val 1⟩
  else
    let multipleNum := findMultipleNum2 min max
    let changeMin : Option JSN :=
      match options.min with
      | some v => if jtruthy v then some (jmul v multipleNum) else none
      | none => none
    let changeMax : Option JSN :=
      match options.max with
      | some v => if jtruthy v then some (jmul v multipleNum) else none
      | none => none
    ⟨jmul min multipleNum, jmul max multipleNum, ⟨changeMin, changeMax, none⟩, multipleNum⟩

/-- `_makeOriginalTypeTickInfo` (axisModel.js lines 259-273); the stray
`console.log` in the label loop (a noted defect in the source) has no effect
on the value and is not modelled. -/
def makeOriginalTypeTickInfo (tickInfo : TickInfo) (divideNum : JSN) : TickInfo :=
  if jeqB divideNum (val 1) then tickInfo
  else
    ⟨⟨neDivision tickInfo.scale.min divideNum, neDivision tickInfo.scale.max divideNum⟩,
      neDivision tickInfo.step divideNum,
      tickInfo.tickCount,
      tickInfo.labels.map (fun label => neDivision label divideNum)⟩

/-- The tick-count list selection of `_getTickInfo` (axisModel.js line 216):
`options.tickCount ? [options.tickCount] : this._getCandidateTickCounts(...)`. -/
def tickCountsOf (options : AxisOptions) (isVertical : Bool) (d : ChartDimension) : List JSN :=
  match options.tickCount with
  | some tc => if jtruthy tc then [tc] else getCandidateTickCounts isVertical d
  | none => getCandidateTickCounts isVertical d

/-- `_getTickInfo` (axisModel.js lines 214-221). -/
def getTickInfo (isLineChart isVertical : Bool) (min max : JSN)
    (chartDimension : ChartDimension) (options : AxisOptions) : Option TickInfo :=
  let intTypeInfo := makeIntegerTypeInfo min max options
  let tickCounts := tickCountsOf options isVertical chartDimension
  match getTickInfoCandidates isLineChart intTypeInfo.min intTypeInfo.max
      tickCounts intTypeInfo.options with
  | none => none
  | some candidates =>
      match selectTickInfo intTypeInfo.min intTypeInfo.max candidates with
      | none => none
      | some tickInfo => some (makeOriginalTypeTickInfo tickInfo intTypeInfo.divideNum)

/-- `_formatLabels` (axisModel.js lines 517-529): fold the format functions
over each label; with no functions the labels are returned unchanged. -/
def formatLabels (formatFunctions : List (JSN → JSN)) (labels : List JSN) : List JSN :=
  match formatFunctions with
  | [] => labels
  | fns => labels.map (fun label => fns.foldl (fun stored fn => fn stored) label)

/-- The value-axis output `{tickCount, labels, scale}` set by
`_setValueAxisData` (axisModel.js lines 123-134). -/
structure ValueAxisData where
  tickCount : JSN
  labels : List JSN
  scale : Scale
deriving DecidableEq, Repr

/-- `_setValueAxisData` (axisModel.js lines 123-134): flatten the group
values, take their min/max and run `_getTickInfo`; no validation of any kind
is performed on the way in. -/
def setValueAxisData (isLineChart isVertical : Bool) (groupValues : List (List JSN))
    (chartDimension : ChartDimension) (formatFunctions : List (JSN → JSN))
    (options : AxisOptions) : Option ValueAxisData :=
  let values := groupValues.flatten
  let min := neMinL values
  let max := neMaxL values
  (getTickInfo isLineChart isVertical min max chartDimension options).map
    (fun tickInfo => ⟨tickInfo.tickCount, formatLabels formatFunctions tickInfo.labels, tickInfo.scale⟩)

/-! ### Arithmetic facts about truncation and the JS remainder -/

theorem jsTrunc_of_nonneg {q : ℚ} (h : 0 ≤ q) : jsTrunc q = ⌊q⌋ := by
  unfold jsTrunc
  rw [if_neg (not_lt.mpr h)]

theorem jsTrunc_intCast (k : ℤ) : jsTrunc (k : ℚ) = k := by
  unfold jsTrunc
  split
  · rw [← Int.cast_neg, Int.floor_intCast, neg_neg]
  · exact Int.floor_intCast k

theorem sub_trunc_bounds_of_nonneg {a b : ℚ} (ha : 0 ≤ a) (hb : 0 < b) :
    0 ≤ a - b * (jsTrunc (a / b) : ℚ) ∧ a - b * (jsTrunc (a / b) : ℚ) < b := by
  rw [jsTrunc_of_nonneg (div_nonneg ha hb.le)]
  have h1 : (⌊a / b⌋ : ℚ) ≤ a / b := Int.floor_le _
  have h2 : a / b < (⌊a / b⌋ : ℚ) + 1 := Int.lt_floor_add_one _
  have hb' : b ≠ 0 := ne_of_gt hb
  constructor
  · have := mul_le_mul_of_nonneg_left h1 hb.le
    rw [mul_div_cancel₀ a hb'] at this
    linarith
  · have := mul_lt_mul_of_pos_left h2 hb
    rw [mul_div_cancel₀ a hb'] at this
    linarith

theorem sub_trunc_bounds_of_neg {a b : ℚ} (ha : a < 0) (hb : 0 < b) :
    -b < a - b * (jsTrunc (a / b) : ℚ) ∧ a - b * (jsTrunc (a / b) : ℚ) ≤ 0 := by
  have hq : a / b < 0 := div_neg_of_neg_of_pos ha hb
  have htr : jsTrunc (a / b) = -⌊-(a / b)⌋ := by
    unfold jsTrunc
    rw [if_pos hq]
  rw [htr]
  have h1 : (⌊-(a / b)⌋ : ℚ) ≤ -(a / b) := Int.floor_le _
  have h2 : -(a / b) < (⌊-(a / b)⌋ : ℚ) + 1 := Int.lt_floor_add_one _
  have hb' : b ≠ 0 := ne_of_gt hb
  have hdiv : b * (a / b) = a := mul_div_cancel₀ a hb'
  have e1 : b * (-(a / b)) = -a := by rw [mul_neg, hdiv]
  have l1 : b * (⌊-(a / b)⌋ : ℚ) ≤ -a := by
    have := mul_le_mul_of_nonneg_left h1 hb.le
    linarith [this, e1.le]
  have l2 : -a < b * (⌊-(a / b)⌋ : ℚ) + b := by
    have := mul_lt_mul_of_pos_left h2 hb
    rw [mul_add, mul_one] at this
    linarith [this, e1.ge]
  push_cast
  constructor <;> nlinarith

/-- A multiple of `b` leaves remainder `0`. -/
theorem sub_trunc_of_mul {b : ℚ} (hb : b ≠ 0) (k : ℤ) :
    b * (k : ℚ) - b * (jsTrunc ((b * (k : ℚ)) / b) : ℚ) = 0 := by
  rw [mul_comm b (k : ℚ), mul_div_assoc, div_self hb, mul_one, jsTrunc_intCast]
  ring

/-! ### Facts about `normalizeStep` -/

theorem normalizeStepAux_neg :
    ∀ (f : ℕ) (q : ℚ), q < 0 → normalizeStepAux f (val q) = none := by
  intro f
  induction f with
  | zero => intro q _; rfl
  | succ f ih =>
      intro q hq
      have hq0 : ¬ q = 0 := ne_of_lt hq
      have h1 : q < 1 := lt_trans hq one_pos
      simp only [normalizeStepAux, jeqB_val, normalizeStandard, jltB_val, jmul_val,
        decide_eq_true_eq, hq0, if_false, if_pos h1, if_pos (by norm_num : (0:ℚ) < 1)]
      rw [ih (q * 10) (by nlinarith)]
      rfl

theorem normalizeStepAux_pos_ge :
    ∀ (f : ℕ) (q : ℚ) (r : JSN), 0 < q → normalizeStepAux f (val q) = some r →
      ∃ r' : ℚ, r = val r' ∧ q ≤ r' := by
  intro f
  induction f with
  | zero => intro q r _ h; exact absurd h (by simp [normalizeStepAux])
  | succ f ih =>
      intro q r hq h
      have hq0 : ¬ q = 0 := ne_of_gt hq
      simp only [normalizeStepAux, jeqB_val, decide_eq_true_eq, hq0, if_false] at h
      by_cases h1 : q < 1
      · simp only [normalizeStandard, jltB_val, decide_eq_true_eq, if_pos h1,
          if_pos (by norm_num : (0:ℚ) < 1), jmul_val, Option.map_eq_some'] at h
        obtain ⟨r0, hr0, hrr⟩ := h
        obtain ⟨r0', hval, hge⟩ := ih (q * 10) r0 (by nlinarith) hr0
        subst hval
        refine ⟨r0' * (1 / 10), by rw [← hrr]; rfl, by nlinarith⟩
      · -- a ladder standard `s ∈ {2, 5, 10}` is chosen and the step is rounded up
        have hs : ∃ s : ℚ, 1 ≤ s ∧ normalizeStandard (val q) = val s := by
          simp only [normalizeStandard, jltB_val, decide_eq_true_eq, if_neg h1]
          by_cases h2 : q < 2
          · exact ⟨2, by norm_num, by rw [if_pos h2]⟩
          · by_cases h5 : q < 5
            · exact ⟨5, by norm_num, by rw [if_neg h2, if_pos h5]⟩
            · exact ⟨10, by norm_num, by rw [if_neg h2, if_neg h5]⟩
        obtain ⟨s, h1s, hstd⟩ := hs
        have hs0 : (0 : ℚ) < s := lt_of_lt_of_le one_pos h1s
        rw [hstd] at h
        have hns : ¬ s < 1 := not_lt.mpr h1s
        simp only [jltB_val, decide_eq_true_eq, if_neg hns, neMod, jrem, jgtB_val,
          neAddition, if_neg (ne_of_gt hs0)] at h
        set m := q - s * (jsTrunc (q / s) : ℚ) with hm
        by_cases hmp : 0 < m
        · simp only [decide_eq_true_eq, if_pos hmp, jsub_val, jadd_val] at h
          have hlt : m < s := (sub_trunc_bounds_of_nonneg hq.le hs0).2
          exact ⟨q + (s - m), (Option.some.inj h).symm, by linarith⟩
        · simp only [decide_eq_true_eq, if_neg hmp, jadd_val] at h
          exact ⟨q + 0, (Option.some.inj h).symm, by linarith⟩

theorem normalizeStepAux_isSome :
    ∀ (f : ℕ) (q : ℚ), 0 < q → 1 ≤ q * 10 ^ f →
      (normalizeStepAux (f + 1) (val q)).isSome := by
  intro f
  induction f with
  | zero =>
      intro q hq hqf
      rw [pow_zero, mul_one] at hqf
      have hq0 : ¬ q = 0 := ne_of_gt hq
      have h1 : ¬ q < 1 := not_lt.mpr hqf
      simp only [normalizeStepAux, jeqB_val, decide_eq_true_eq, hq0, if_false,
        normalizeStandard, jltB_val, if_neg h1]
      by_cases h2 : q < 2 <;> by_cases h5 : q < 5 <;>
        simp [h2, h5, Option.isSome]
  | succ f ih =>
      intro q hq hqf
      have hq0 : ¬ q = 0 := ne_of_gt hq
      rw [normalizeStepAux]
      by_cases h1 : q < 1
      · have hrec : (normalizeStepAux (f + 1) (val (q * 10))).isSome := by
          refine ih (q * 10) (by nlinarith) ?_
          have he : q * 10 * 10 ^ f = q * 10 ^ (f + 1) := by ring
          rw [he]
          exact hqf
        obtain ⟨x, hx⟩ := Option.isSome_iff_exists.mp hrec
        simp only [jeqB_val, decide_eq_true_eq, hq0, if_false, normalizeStandard,
          jltB_val, if_pos h1, if_pos (by norm_num : (0:ℚ) < 1), jmul_val]
        rw [hx]
        rfl
      · simp only [jeqB_val, decide_eq_true_eq, hq0, if_false, normalizeStandard,
          jltB_val, if_neg h1]
        by_cases h2 : q < 2 <;> by_cases h5 : q < 5 <;>
          simp [h2, h5, Option.isSome]

theorem normalizeStep_zero : normalizeStep (val 0) = some (val 0) := by decide

theorem normalizeStep_pos (q : ℚ) (hq : 0 < q) :
    ∃ r : ℚ, normalizeStep (val q) = some (val r) ∧ q ≤ r := by
  have hden : (0 : ℚ) < (q.den : ℚ) := by exact_mod_cast q.pos
  have hdpow : (q.den : ℚ) ≤ 10 ^ (q.den + 1) := by
    have h := Nat.lt_pow_self (by norm_num : 1 < 10) q.den
    have h2 : (10 : ℕ) ^ q.den ≤ 10 ^ (q.den + 1) :=
      Nat.pow_le_pow_right (by norm_num) (Nat.le_succ _)
    exact_mod_cast le_of_lt (lt_of_lt_of_le h h2)
  have hnum : (1 : ℚ) ≤ (q.num : ℚ) := by
    have : 0 < q.num := Rat.num_pos.mpr hq
    exact_mod_cast this
  have hqden : 1 ≤ q * (q.den : ℚ) := by
    have hden0 : (q.den : ℚ) ≠ 0 := ne_of_gt hden
    have h2 : (q.num : ℚ) = q * (q.den : ℚ) :=
      (div_eq_iff hden0).mp (Rat.num_div_den q)
    linarith [h2, hnum]
  have hfuel : 1 ≤ q * 10 ^ (q.den + 1) := by
    calc (1 : ℚ) ≤ q * (q.den : ℚ) := hqden
    _ ≤ q * 10 ^ (q.den + 1) := by
        apply mul_le_mul_of_nonneg_left hdpow hq.le
  have hsome : (normalizeStepAux ((q.den + 1) + 1) (val q)).isSome :=
    normalizeStepAux_isSome (q.den + 1) q hq hfuel
  have hdef : normalizeStep (val q) = normalizeStepAux (q.den + 2) (val q) := rfl
  obtain ⟨r0, hr0⟩ := Option.isSome_iff_exists.mp hsome
  have hr0' : normalizeStep (val q) = some r0 := by
    rw [hdef]
    exact hr0
  obtain ⟨r, hval, hge⟩ := normalizeStepAux_pos_ge ((q.den + 1) + 1) q r0 hq hr0
  exact ⟨r, by rw [hr0', hval], hge⟩

theorem normalizeStep_neg (q : ℚ) (hq : q < 0) : normalizeStep (val q) = none :=
  normalizeStepAux_neg _ q hq

theorem normalizeStep_eq_zero {q : ℚ} (h : normalizeStep (val q) = some (val 0)) :
    q = 0 := by
  rcases lt_trichotomy q 0 with hlt | he | hgt
  · rw [normalizeStep_neg q hlt] at h
    cases h
  · exact he
  · obtain ⟨r, hr, hqr⟩ := normalizeStep_pos q hgt
    rw [h] at hr
    have : (0 : ℚ) = r := by
      have := Option.some.inj hr
      exact congrArg (fun x => match x with | val q => q | _ => 0) this
    linarith [hqr, this.symm.le]

/-! ### Facts about `calculateScale`, `applyOptions`, `normalizeMin` -/

theorem jdiv_val20 (a : ℚ) : jdiv (val a) (val 20) = val (a / 20) :=
  jdiv_val a 20 (by norm_num)

theorem jdiv_val6 (a : ℚ) : jdiv (val a) (val 6) = val (a / 6) :=
  jdiv_val a 6 (by norm_num)

theorem jdiv_val2 (a : ℚ) : jdiv (val a) (val 2) = val (a / 2) :=
  jdiv_val a 2 (by norm_num)

theorem calculateScale_spec (a b : ℚ) (hab : a ≤ b) :
    ∃ mn mx : ℚ, calculateScale (val a) (val b) = ⟨val mn, val mx⟩ ∧
      mn ≤ a ∧ b ≤ mx ∧ (a < b → mn < mx) := by
  unfold calculateScale
  by_cases h : a < 0
  · simp only [jltB_val, decide_eq_true_eq, if_pos h, jsub_val, jadd_val, jdiv_val20,
      jdiv_val6, jgtB_val]
    by_cases hlt : a < b
    · rw [if_pos (div_pos (by linarith : (0:ℚ) < b - a) (by norm_num) : (0:ℚ) < (b - a) / 6)]
      refine ⟨_, _, rfl, by linarith, ?_, fun _ => ?_⟩
      · have : 0 ≤ (b - a - 0) / 20 := div_nonneg (by linarith) (by norm_num)
        linarith
      · have : 0 < (b - a - 0) / 20 := div_pos (by linarith) (by norm_num)
        linarith
    · have heq : a = b := le_antisymm hab (not_lt.mp hlt)
      subst heq
      rw [if_neg (by simp : ¬ (0:ℚ) < (a - a) / 6)]
      refine ⟨_, _, rfl, ?_, ?_, fun hc => absurd hc (lt_irrefl a)⟩
      · simp
      · simp
  · have ha : 0 ≤ a := not_lt.mp h
    simp only [jltB_val, decide_eq_true_eq, if_neg h, jsub_val, jadd_val, jdiv_val20,
      jdiv_val6, jgtB_val]
    have hiod : 0 ≤ (b - a) / 20 := div_nonneg (by linarith) (by norm_num)
    by_cases hm : a < b / 6
    · rw [if_pos hm]
      refine ⟨_, _, rfl, by linarith, by linarith, fun hc => ?_⟩
      have hb : 0 < b := lt_of_le_of_lt ha hc
      have : 0 < (b - a) / 20 := div_pos (by linarith) (by norm_num)
      linarith
    · rw [if_neg hm]
      refine ⟨_, _, rfl, by linarith, by linarith, fun hc => ?_⟩
      have : 0 < (b - a) / 20 := div_pos (by linarith) (by norm_num)
      linarith

theorem applyOptions_none (s : Scale) (o : AxisOptions) (h1 : o.min = none)
    (h2 : o.max = none) : applyOptions s o = s := by
  simp [applyOptions, h1, h2]

theorem normalizeMin_le (m s : ℚ) (hs : 0 < s) :
    ∃ m' : ℚ, normalizeMin (val m) (val s) = val m' ∧ m' ≤ m := by
  unfold normalizeMin neMod
  rw [jrem_val m s (ne_of_gt hs)]
  set r := m - s * (jsTrunc (m / s) : ℚ) with hr
  by_cases hr0 : r = 0
  · simp only [jeqB_val, decide_eq_true_eq, hr0, if_pos rfl]
    exact ⟨m, rfl, le_refl m⟩
  · simp only [jeqB_val, decide_eq_true_eq, if_neg hr0, jgeB_val, neSubtraction, jadd_val]
    by_cases hm : 0 ≤ m
    · rw [if_pos (by simpa using hm), jsub_val]
      have h0 : 0 ≤ r := by
        rw [hr]
        exact (sub_trunc_bounds_of_nonneg hm hs).1
      exact ⟨m - r, rfl, by linarith⟩
    · rw [if_neg (by simpa using hm), jsub_val]
      have hmlt : m < 0 := not_le.mp hm
      have h1 : -s < r := by
        rw [hr]
        exact (sub_trunc_bounds_of_neg hmlt hs).1
      exact ⟨m - (s + r), rfl, by linarith⟩

/-! ### Facts about `neRange`, `minimizeLoop` and the refiner -/

theorem neRange_val_one_mem (a b : ℚ) :
    ∀ x ∈ neRange (val a) (val b) (val 1), ∃ q : ℚ, x = val q := by
  intro x hx
  unfold neRange at hx
  norm_num [jtruthy] at hx
  obtain ⟨y, _, rfl⟩ := hx
  exact ⟨y, rfl⟩

theorem rangeAsc_ne_nil (a b s : ℚ) (hs : 0 < s) (hab : a < b) :
    rangeAsc a b s ≠ [] := by
  unfold rangeAsc
  rw [if_pos hs]
  have hpos : 0 < (b - a) / s := div_pos (by linarith) hs
  have hceil : 1 ≤ ⌈(b - a) / s⌉ := by
    have := Int.ceil_pos.mpr hpos
    omega
  have htn : 1 ≤ (⌈(b - a) / s⌉).toNat := by omega
  obtain ⟨k, hk⟩ : ∃ k, (⌈(b - a) / s⌉).toNat = k + 1 :=
    ⟨(⌈(b - a) / s⌉).toNat - 1, by omega⟩
  rw [hk]
  simp [rangeAscAux, hab]

theorem minimizeLoop_contains (ua ub : ℚ) (o : AxisOptions) (h1 : o.min = none)
    (h2 : o.max = none) (sq tminq tmaxq : ℚ) :
    ∀ (ticks : List JSN), (∀ t ∈ ticks, ∃ q : ℚ, t = val q) →
    ∀ (s : Scale) (mn mx : ℚ), s = ⟨val mn, val mx⟩ → mn ≤ ua → ub ≤ mx →
    ∃ mn' mx',
      minimizeLoop (val ua) (val ub) o (val sq) (val tminq) (val tmaxq) ticks s =
        ⟨val mn', val mx'⟩ ∧ mn' ≤ ua ∧ ub ≤ mx' := by
  intro ticks
  induction ticks with
  | nil =>
      intro _ s mn mx hs hmn hmx
      exact ⟨mn, mx, by rw [hs]; rfl, hmn, hmx⟩
  | cons t ts ih =>
      intro hall s mn mx hs hmn hmx
      subst hs
      obtain ⟨tq, rfl⟩ := hall t (List.mem_cons_self t ts)
      have hall' : ∀ t ∈ ts, ∃ q : ℚ, t = val q :=
        fun t ht => hall t (List.mem_cons_of_mem _ ht)
      rw [minimizeLoop]
      simp only [jmul_val, jadd_val, jsub_val, jltB_val, jleB_val, jgtB_val, jgeB_val,
        h1, h2, Option.isNone_none, Bool.true_and, Bool.not_true, Bool.false_and,
        Bool.or_false]
      split
      · exact ⟨mn, mx, rfl, hmn, hmx⟩
      · set cmn := tminq + sq * tq with hcmn
        set cmx := tmaxq - sq * tq with hcmx
        by_cases hc1 : cmn < ua
        · by_cases hc2 : ub < cmx
          · rw [if_pos (by simpa using hc2), if_pos (by simpa using hc1)]
            exact ih hall' _ cmn cmx rfl hc1.le hc2.le
          · rw [if_neg (by simpa using hc2), if_pos (by simpa using hc1)]
            exact ih hall' _ cmn mx rfl hc1.le hmx
        · by_cases hc2 : ub < cmx
          · rw [if_pos (by simpa using hc2), if_neg (by simpa using hc1)]
            exact ih hall' _ mn cmx rfl hmn hc2.le
          · rw [if_neg (by simpa using hc2), if_neg (by simpa using hc1)]
            exact ih hall' _ mn mx rfl hmn hmx

theorem minimizeTickScale_scale (userMin userMax : JSN) (ti : TickInfo)
    (o : AxisOptions) :
    (minimizeTickScale userMin userMax ti o).scale =
      minimizeLoop userMin userMax o ti.step ti.scale.min ti.scale.max
        (neRange (val 1) ti.tickCount (val 1)) ti.scale := rfl

theorem minimizeTickScale_step (userMin userMax : JSN) (ti : TickInfo)
    (o : AxisOptions) :
    (minimizeTickScale userMin userMax ti o).step = ti.step := rfl

theorem divideTickStep_scale (ti : TickInfo) (orgTickCount : JSN) :
    (divideTickStep ti orgTickCount).scale = ti.scale := by
  simp only [divideTickStep]
  split <;> rfl

theorem divideTickStep_step (ti : TickInfo) (orgTickCount : JSN) :
    (divideTickStep ti orgTickCount).step = ti.step ∨
      (divideTickStep ti orgTickCount).step = jdiv ti.step (val 2) := by
  simp only [divideTickStep]
  split
  · exact Or.inr rfl
  · exact Or.inl rfl

theorem minimizeTickScale_count (userMin userMax : JSN) (ti : TickInfo)
    (o : AxisOptions) :
    (minimizeTickScale userMin userMax ti o).tickCount =
      val (((minimizeTickScale userMin userMax ti o).labels).length : ℚ) := rfl

theorem divideTickStep_count (ti : TickInfo) (orgTickCount : JSN)
    (h : ti.tickCount = val ((ti.labels).length : ℚ)) :
    (divideTickStep ti orgTickCount).tickCount =
      val (((divideTickStep ti orgTickCount).labels).length : ℚ) := by
  simp only [divideTickStep]
  split
  · rfl
  · exact h

theorem recomputeScaleMax_val (m1 r n : ℚ) :
    recomputeScaleMax (val m1) (val r) (val n) = val (m1 + r * (n - 1)) := by
  unfold recomputeScaleMax findMultipleNum1
  have hc : (0 : ℚ) < 10 ^ underPointLength (val r) := by positivity
  simp only [jmul_val, jadd_val, jsub_val]
  rw [jdiv_val _ _ (ne_of_gt hc)]
  congr 1
  field_simp
  ring

theorem extendScaleMax_ge (M S r : ℚ) (hr : 0 < r) :
    ∃ S2 : ℚ, extendScaleMax (val M) (val S) (val r) = val S2 ∧ M ≤ S2 := by
  unfold extendScaleMax
  simp only [jsub_val, jgtB_val]
  by_cases hd : 0 < M - S
  · rw [if_pos (by simpa using hd)]
    rw [jrem_val _ _ (ne_of_gt hr), jdiv_val _ _ (ne_of_gt hr), jfloor_val]
    have hfl : jsTrunc ((M - S) / r) = ⌊(M - S) / r⌋ :=
      jsTrunc_of_nonneg (by positivity)
    set d := M - S with hdd
    by_cases hm : 0 < d - r * (jsTrunc (d / r) : ℚ)
    · rw [if_pos (by simpa using hm), jadd_val, jmul_val, jadd_val]
      refine ⟨S + r * ((⌊d / r⌋ : ℚ) + 1), rfl, ?_⟩
      have h2 : d / r < (⌊d / r⌋ : ℚ) + 1 := Int.lt_floor_add_one _
      have h3 : d < r * ((⌊d / r⌋ : ℚ) + 1) := by
        have := mul_lt_mul_of_pos_left h2 hr
        rwa [mul_div_cancel₀ d (ne_of_gt hr)] at this
      linarith
    · rw [if_neg (by simpa using hm), jmul_val, jadd_val]
      refine ⟨S + r * (⌊d / r⌋ : ℚ), rfl, ?_⟩
      have h0 : 0 ≤ d - r * (jsTrunc (d / r) : ℚ) :=
        (sub_trunc_bounds_of_nonneg (by linarith : (0:ℚ) ≤ d) hr).1
      have heq : d - r * (jsTrunc (d / r) : ℚ) = 0 := le_antisymm (not_lt.mp hm) h0
      rw [hfl] at heq
      linarith
  · rw [if_neg (by simpa using hd)]
    exact ⟨S, rfl, by linarith⟩


/-- The tail of `_makeTickInfo` after the scale bounds and normalized step are
known rationals: tightening and step-halving keep the scale rational and the
step positive. -/
theorem makeTickInfo_tail (o : AxisOptions) (h1 : o.min = none) (h2 : o.max = none)
    (ua ub P Q r n : ℚ) (hP : P ≤ ua) (hQ : ub ≤ Q) (hr : 0 < r) :
    ∃ (ti : TickInfo) (mn mx r' : ℚ),
      some (divideTickStep (minimizeTickScale (val ua) (val ub)
        ⟨⟨val P, val Q⟩, val r, val n, []⟩ o) (val n)) = some ti ∧
      ti.scale = ⟨val mn, val mx⟩ ∧ mn ≤ ua ∧ ub ≤ mx ∧ ti.step = val r' ∧ 0 < r' := by
  obtain ⟨mn', mx', hloop, hmn', hmx'⟩ :=
    minimizeLoop_contains ua ub o h1 h2 r P Q (neRange (val 1) (val n) (val 1))
      (neRange_val_one_mem 1 n) ⟨val P, val Q⟩ P Q rfl hP hQ
  have hstep : (minimizeTickScale (val ua) (val ub)
      ⟨⟨val P, val Q⟩, val r, val n, []⟩ o).step = val r := rfl
  rcases divideTickStep_step (minimizeTickScale (val ua) (val ub)
      ⟨⟨val P, val Q⟩, val r, val n, []⟩ o) (val n) with hst | hst
  · refine ⟨_, mn', mx', r, rfl, ?_, hmn', hmx', by rw [hst, hstep], hr⟩
    rw [divideTickStep_scale]
    exact hloop
  · refine ⟨_, mn', mx', r / 2, rfl, ?_, hmn', hmx', ?_, by positivity⟩
    · rw [divideTickStep_scale]
      exact hloop
    · rw [hst, hstep, jdiv_val2]

/-- The central containment fact: without min/max overrides, a candidate built
by `_makeTickInfo` for a tick count of at least `2` on a non-degenerate range
has a rational scale that contains the user data, and a positive rational
step. -/
theorem makeTickInfo_spec (isLineChart : Bool) (n a b ua ub : ℚ) (hn : 2 ≤ n)
    (isMinus : Bool) (o : AxisOptions) (h1 : o.min = none) (h2 : o.max = none)
    (hshape : (isMinus = true ∧ a = -ub ∧ b = -ua) ∨ (isMinus = false ∧ a = ua ∧ b = ub))
    (hlt : ua < ub) :
    ∃ (ti : TickInfo) (mn mx r : ℚ),
      makeTickInfo isLineChart (val n) (val a) (val b) (val ua) (val ub) isMinus o
        = some ti ∧
      ti.scale = ⟨val mn, val mx⟩ ∧ mn ≤ ua ∧ ub ≤ mx ∧ ti.step = val r ∧ 0 < r := by
  have hab : a < b := by
    rcases hshape with ⟨_, ha, hb⟩ | ⟨_, ha, hb⟩ <;> subst ha <;> subst hb <;> linarith
  obtain ⟨mn0, mx0, hcs, hcmn, hcmx, hc3⟩ := calculateScale_spec a b hab.le
  have hspan : mn0 < mx0 := hc3 hab
  have hao : ∀ s : Scale, applyOptions s o = s := fun s => applyOptions_none s o h1 h2
  have hn1 : (0 : ℚ) < n - 1 := by linarith
  rcases hshape with ⟨hm, ha, hb⟩ | ⟨hm, ha, hb⟩ <;> subst hm <;> subst ha <;> subst hb
  · -- isMinus = true: the mirrored scale is ⟨-mx0, -mn0⟩
    simp only [makeTickInfo, hcs, hao, if_true, jneg_val]
    have hstepeq : getScaleStep ⟨val (-mx0), val (-mn0)⟩ (val n) =
        val ((-mn0 - -mx0) / (n - 1)) := by
      unfold getScaleStep
      simp only [jsub_val]
      exact jdiv_val _ _ (ne_of_gt hn1)
    have htpos : 0 < (-mn0 - -mx0) / (n - 1) := div_pos (by linarith) hn1
    obtain ⟨r, hnr, hrge⟩ := normalizeStep_pos _ htpos
    have hr0 : 0 < r := lt_of_lt_of_le htpos hrge
    split
    · next heq =>
        rw [hstepeq, hnr] at heq
        cases heq
    · next step heq =>
        rw [hstepeq, hnr] at heq
        have hv : val r = step := Option.some.inj heq
        subst hv
        obtain ⟨m1, hm1, hm1le⟩ := normalizeMin_le (-mx0) r hr0
        obtain ⟨S2, hS2, hS2ge⟩ := extendScaleMax_ge (-mn0) (m1 + r * (n - 1)) r hr0
        simp only [hm1, recomputeScaleMax_val, hS2, h1, h2, Option.isNone_none,
          Bool.and_true, Bool.true_and, jadd_val, jsub_val]
        split <;> split <;>
          exact makeTickInfo_tail o h1 h2 ua ub _ _ r n (by linarith) (by linarith) hr0
  · -- isMinus = false (here `subst` has identified `ua` with `a` and `ub` with `b`)
    simp only [makeTickInfo, hcs, hao, Bool.false_eq_true, if_false]
    have hstepeq : getScaleStep ⟨val mn0, val mx0⟩ (val n) =
        val ((mx0 - mn0) / (n - 1)) := by
      unfold getScaleStep
      simp only [jsub_val]
      exact jdiv_val _ _ (ne_of_gt hn1)
    have htpos : 0 < (mx0 - mn0) / (n - 1) := div_pos (by linarith) hn1
    obtain ⟨r, hnr, hrge⟩ := normalizeStep_pos _ htpos
    have hr0 : 0 < r := lt_of_lt_of_le htpos hrge
    split
    · next heq =>
        rw [hstepeq, hnr] at heq
        cases heq
    · next step heq =>
        rw [hstepeq, hnr] at heq
        have hv : val r = step := Option.some.inj heq
        subst hv
        obtain ⟨m1, hm1, hm1le⟩ := normalizeMin_le mn0 r hr0
        obtain ⟨S2, hS2, hS2ge⟩ := extendScaleMax_ge mx0 (m1 + r * (n - 1)) r hr0
        simp only [hm1, recomputeScaleMax_val, hS2, h1, h2, Option.isNone_none,
          Bool.and_true, Bool.true_and, jadd_val, jsub_val]
        split <;> split <;>
          exact makeTickInfo_tail o h1 h2 a b _ _ r n (by linarith) (by linarith) hr0

/-! ### Facts about candidate generation and selection -/

theorem mapM_some_forall {α β : Type} (f : α → Option β) :
    ∀ (l : List α) (res : List β), l.mapM f = some res →
      ∀ y ∈ res, ∃ x ∈ l, f x = some y := by
  intro l
  induction l with
  | nil =>
      intro res h y hy
      simp only [List.mapM_nil, pure, Option.some.injEq] at h
      subst h
      cases hy
  | cons x xs ih =>
      intro res h y hy
      rw [List.mapM_cons] at h
      cases hfx : f x with
      | none => rw [hfx] at h; cases h
      | some b =>
          rw [hfx] at h
          cases hxs : xs.mapM f with
          | none => rw [hxs] at h; cases h
          | some bs =>
              rw [hxs] at h
              have hres : b :: bs = res := Option.some.inj h
              subst hres
              rcases List.mem_cons.mp hy with rfl | hmem
              · exact ⟨x, List.mem_cons_self x xs, hfx⟩
              · obtain ⟨x', hx', hfx'⟩ := ih bs hxs y hmem
                exact ⟨x', List.mem_cons_of_mem _ hx', hfx'⟩

theorem mapM_isSome {α β : Type} (f : α → Option β) :
    ∀ (l : List α), (∀ x ∈ l, (f x).isSome) → (l.mapM f).isSome := by
  intro l
  induction l with
  | nil => intro _; rfl
  | cons x xs ih =>
      intro hall
      rw [List.mapM_cons]
      obtain ⟨b, hb⟩ := Option.isSome_iff_exists.mp (hall x (List.mem_cons_self x xs))
      obtain ⟨bs, hbs⟩ := Option.isSome_iff_exists.mp
        (ih fun t ht => hall t (List.mem_cons_of_mem _ ht))
      rw [hb, hbs]
      rfl

theorem selectGo_mem (mn mx : JSN) :
    ∀ (rest : List TickInfo) (ti : TickInfo) (mv : JSN),
      selectGo mn mx ti mv rest = ti ∨ selectGo mn mx ti mv rest ∈ rest := by
  intro rest
  induction rest with
  | nil => intro ti mv; exact Or.inl rfl
  | cons i is ih =>
      intro ti mv
      rw [selectGo]
      split
      · rcases ih i (getComparingValue i.scale i.step mn mx) with h | h
        · rw [h]; exact Or.inr (List.mem_cons_self i is)
        · exact Or.inr (List.mem_cons_of_mem _ h)
      · rcases ih ti mv with h | h
        · exact Or.inl h
        · exact Or.inr (List.mem_cons_of_mem _ h)

theorem selectTickInfo_mem (mn mx : JSN) (cands : List TickInfo) (ti : TickInfo)
    (h : selectTickInfo mn mx cands = some ti) : ti ∈ cands := by
  cases cands with
  | nil => cases h
  | cons c cs =>
      have he := Option.some.inj h
      rcases selectGo_mem mn mx cs c (getComparingValue c.scale c.step mn mx) with h' | h'
      · rw [← he, h']
        exact List.mem_cons_self c cs
      · rw [← he]
        exact List.mem_cons_of_mem _ h'

theorem makeTickInfo_count (isLineChart : Bool) (tickCount min max userMin userMax : JSN)
    (isMinus : Bool) (o : AxisOptions) (ti : TickInfo)
    (h : makeTickInfo isLineChart tickCount min max userMin userMax isMinus o = some ti) :
    ti.tickCount = val ((ti.labels).length : ℚ) := by
  simp only [makeTickInfo] at h
  split at h
  · cases h
  · next step heq =>
      have he := Option.some.inj h
      rw [← he]
      exact divideTickStep_count _ _ (minimizeTickScale_count _ _ _ _)

theorem makeOriginalTypeTickInfo_count (ti : TickInfo) (d : JSN)
    (h : ti.tickCount = val ((ti.labels).length : ℚ)) :
    (makeOriginalTypeTickInfo ti d).tickCount =
      val (((makeOriginalTypeTickInfo ti d).labels).length : ℚ) := by
  unfold makeOriginalTypeTickInfo
  split
  · exact h
  · simpa only [List.length_map] using h

theorem getTickInfo_count (isLineChart isVertical : Bool) (min max : JSN)
    (d : ChartDimension) (o : AxisOptions) (ti : TickInfo)
    (h : getTickInfo isLineChart isVertical min max d o = some ti) :
    ti.tickCount = val ((ti.labels).length : ℚ) := by
  simp only [getTickInfo] at h
  split at h
  · cases h
  · next cands hcands =>
      split at h
      · cases h
      · next sel hsel =>
          have he := Option.some.inj h
          rw [← he]
          apply makeOriginalTypeTickInfo_count
          have hmem := selectTickInfo_mem _ _ cands sel hsel
          unfold getTickInfoCandidates at hcands
          obtain ⟨tc, _, hmk⟩ := mapM_some_forall _ _ cands hcands sel hmem
          exact makeTickInfo_count _ _ _ _ _ _ _ _ _ hmk

theorem getTickInfoCandidates_contains (isLineChart : Bool) (ua ub : ℚ) (hlt : ua < ub)
    (tcs : List JSN) (htcs : ∀ tc ∈ tcs, ∃ n : ℕ, tc = val (n : ℚ) ∧ 2 ≤ n)
    (o : AxisOptions) (h1 : o.min = none) (h2 : o.max = none)
    (cands : List TickInfo)
    (h : getTickInfoCandidates isLineChart (val ua) (val ub) tcs o = some cands) :
    ∀ ti ∈ cands, ∃ mn mx r : ℚ,
      ti.scale = ⟨val mn, val mx⟩ ∧ mn ≤ ua ∧ ub ≤ mx ∧ ti.step = val r ∧ 0 < r := by
  intro ti hti
  simp only [getTickInfoCandidates] at h
  by_cases hmb : (jltB (val ua) (val 0) && jleB (val ub) (val 0)) = true
  · simp only [hmb, if_true, jneg_val] at h
    obtain ⟨tc, htc, hmk⟩ := mapM_some_forall _ tcs cands h ti hti
    obtain ⟨n, rfl, hn⟩ := htcs tc htc
    have hmk2 : makeTickInfo isLineChart (val (n : ℚ)) (val (-ub)) (val (-ua))
        (val ua) (val ub) true o = some ti := hmk
    obtain ⟨ti', mn, mx, r, hmk', hsc, hmn, hmx, hst, hr⟩ :=
      makeTickInfo_spec isLineChart (n : ℚ) (-ub) (-ua) ua ub (by exact_mod_cast hn)
        true o h1 h2 (Or.inl ⟨rfl, rfl, rfl⟩) hlt
    rw [hmk2] at hmk'
    have := Option.some.inj hmk'
    subst this
    exact ⟨mn, mx, r, hsc, hmn, hmx, hst, hr⟩
  · simp only [hmb, if_false, Bool.not_eq_true] at h
    obtain ⟨tc, htc, hmk⟩ := mapM_some_forall _ tcs cands h ti hti
    obtain ⟨n, rfl, hn⟩ := htcs tc htc
    have hmk2 : makeTickInfo isLineChart (val (n : ℚ)) (val ua) (val ub)
        (val ua) (val ub) false o = some ti := hmk
    obtain ⟨ti', mn, mx, r, hmk', hsc, hmn, hmx, hst, hr⟩ :=
      makeTickInfo_spec isLineChart (n : ℚ) ua ub ua ub (by exact_mod_cast hn)
        false o h1 h2 (Or.inr ⟨rfl, rfl, rfl⟩) hlt
    rw [hmk2] at hmk'
    have := Option.some.inj hmk'
    subst this
    exact ⟨mn, mx, r, hsc, hmn, hmx, hst, hr⟩

/-- The fold of `_selectTickInfo` returns the first element attaining the
minimum comparing value, for rational-valued comparing values. -/
theorem selectGo_first_min (mn mx : JSN) :
    ∀ (rest : List TickInfo) (b : TickInfo) (v : ℚ),
      getComparingValue b.scale b.step mn mx = val v →
      (∀ c ∈ rest, ∃ q : ℚ, getComparingValue c.scale c.step mn mx = val q) →
      ∃ (r : TickInfo) (w : ℚ),
        selectGo mn mx b (val v) rest = r ∧
        getComparingValue r.scale r.step mn mx = val w ∧ w ≤ v ∧
        (∀ c ∈ rest, ∃ q : ℚ, getComparingValue c.scale c.step mn mx = val q ∧ w ≤ q) ∧
        (r = b ∨ (w < v ∧ ∃ pre post, rest = pre ++ r :: post ∧
          ∀ d ∈ pre, ∃ q : ℚ, getComparingValue d.scale d.step mn mx = val q ∧ w < q)) := by
  intro rest
  induction rest with
  | nil =>
      intro b v hb _
      refine ⟨b, v, rfl, hb, le_refl v, ?_, Or.inl rfl⟩
      intro c hc
      cases hc
  | cons i is ih =>
      intro b v hb hall
      obtain ⟨q, hq⟩ := hall i (List.mem_cons_self i is)
      have hall' : ∀ c ∈ is, ∃ w : ℚ, getComparingValue c.scale c.step mn mx = val w :=
        fun c hc => hall c (List.mem_cons_of_mem _ hc)
      rw [selectGo, hq]
      by_cases hqc : q < v
      · rw [if_pos (by simpa using hqc)]
        obtain ⟨r, w, hsel, hcw, hwq, hallw, hcase⟩ := ih i q hq hall'
        refine ⟨r, w, hsel, hcw, by linarith, ?_, Or.inr ?_⟩
        · intro c hc
          rcases List.mem_cons.mp hc with rfl | hmem
          · exact ⟨q, hq, hwq⟩
          · exact hallw c hmem
        · refine ⟨by linarith, ?_⟩
          rcases hcase with rfl | ⟨hwv, pre, post, hsplit, hpre⟩
          · exact ⟨[], is, rfl, by intro d hd; cases hd⟩
          · refine ⟨i :: pre, post, by rw [hsplit]; rfl, ?_⟩
            intro d hd
            rcases List.mem_cons.mp hd with rfl | hmem
            · exact ⟨q, hq, by linarith⟩
            · exact hpre d hmem
      · rw [if_neg (by simpa using hqc)]
        obtain ⟨r, w, hsel, hcw, hwv, hallw, hcase⟩ := ih b v hb hall'
        refine ⟨r, w, hsel, hcw, hwv, ?_, ?_⟩
        · intro c hc
          rcases List.mem_cons.mp hc with rfl | hmem
          · exact ⟨q, hq, by linarith [not_lt.mp hqc]⟩
          · exact hallw c hmem
        · rcases hcase with rfl | ⟨hwlt, pre, post, hsplit, hpre⟩
          · exact Or.inl rfl
          · refine Or.inr ⟨hwlt, i :: pre, post, by rw [hsplit]; rfl, ?_⟩
            intro d hd
            rcases List.mem_cons.mp hd with rfl | hmem
            · exact ⟨q, hq, by linarith [not_lt.mp hqc]⟩
            · exact hpre d hmem

/-! ### The degenerate all-equal-value trace -/

theorem calculateScale_self (w : ℚ) :
    calculateScale (val w) (val w) = ⟨val w, val w⟩ := by
  unfold calculateScale
  by_cases hw : w < 0
  · simp only [jltB_val, decide_eq_true_eq, if_pos hw, jsub_val, jadd_val, jdiv_val20,
      jdiv_val6, jgtB_val, sub_self]
    rw [if_neg (by norm_num : ¬ (0:ℚ) < 0 / 6)]
    norm_num
  · simp only [jltB_val, decide_eq_true_eq, if_neg hw, jsub_val, jadd_val, jdiv_val20,
      jdiv_val6, jgtB_val]
    have hw' : 0 ≤ w := not_lt.mp hw
    have hno : ¬ w < w / 6 := by
      intro hcon
      have : w / 6 ≤ w := by linarith
      linarith
    rw [if_neg hno]
    simp

theorem normalizeMin_zero (m : JSN) : normalizeMin m (val 0) = nan := by
  have hr : neMod m (val 0) = nan := by
    cases m <;> simp [neMod, jrem]
  have hs : ∀ x : JSN, jsub x nan = nan := by
    intro x
    cases x <;> simp [jsub, jadd, jneg]
  unfold normalizeMin
  rw [hr, if_neg (by simp [jeqB])]
  unfold neSubtraction
  split
  · exact hs m
  · rw [show (val 0).jadd nan = nan from by simp [jadd]]
    exact hs m

theorem recomputeScaleMax_nan (step tickCount : JSN) :
    recomputeScaleMax nan step tickCount = nan := by
  unfold recomputeScaleMax findMultipleNum1
  simp [jmul, jadd, jdiv]

theorem extendScaleMax_nan (orgScaleMax step : JSN) :
    extendScaleMax orgScaleMax nan step = nan := by
  unfold extendScaleMax
  have h : jsub orgScaleMax nan = nan := by cases orgScaleMax <;> rfl
  rw [h]
  rw [if_neg (by simp [jgtB, jltB])]

theorem minimizeLoop_nan (u v : JSN) (o : AxisOptions) (h1 : o.min = none)
    (h2 : o.max = none) (step : JSN) :
    ∀ (ticks : List JSN) (s : Scale),
      minimizeLoop u v o step nan nan ticks s = s := by
  intro ticks
  induction ticks with
  | nil => intro s; rfl
  | cons t ts ih =>
      intro s
      rw [minimizeLoop]
      have hmin : jadd nan (jmul step t) = nan := by simp [jadd]
      have hmax : jsub nan (jmul step t) = nan := by simp [jsub, jadd, jneg]
      rw [hmin, hmax]
      have hle : jleB u nan = false := by cases u <;> simp [jleB]
      have hgt : jgtB u nan = false := by unfold jgtB; cases u <;> simp [jltB]
      have hlt : jltB v nan = false := by cases v <;> simp [jltB]
      rw [hle]
      simp only [Bool.false_and, Bool.false_eq_true, if_false, h1, h2,
        Option.isNone_none, Bool.not_true, hgt, hlt, Bool.and_false, Bool.true_and,
        Bool.false_or, Bool.or_false, Bool.false_and]
      exact ih s

theorem makeLabelsFromScale_nan : makeLabelsFromScale ⟨nan, nan⟩ (val 0) = [] := by
  decide

theorem minimizeTickScale_deg (w t : ℚ) (o : AxisOptions) (h1 : o.min = none)
    (h2 : o.max = none) :
    minimizeTickScale (val w) (val w) ⟨⟨nan, nan⟩, val 0, val t, []⟩ o =
      ⟨⟨nan, nan⟩, val 0, val 0, []⟩ := by
  unfold minimizeTickScale
  dsimp only
  rw [minimizeLoop_nan (val w) (val w) o h1 h2 _ _ _, makeLabelsFromScale_nan]
  simp

theorem divideTickStep_deg (t : JSN) :
    divideTickStep ⟨⟨nan, nan⟩, val 0, val 0, []⟩ t = ⟨⟨nan, nan⟩, val 0, val 0, []⟩ := by
  simp only [divideTickStep]
  have hf : jtruthy (jrem (val 0) (val 2)) = false := by decide
  simp [hf]

/-- On a degenerate range (equal scaled min and max) with no overrides,
`_makeTickInfo` for a tick count other than `1` returns the `NaN`-scale,
zero-step, zero-label result. -/
theorem makeTickInfo_deg (isLineChart : Bool) (t w : ℚ) (ht : t ≠ 1)
    (isMinus : Bool) (o : AxisOptions) (h1 : o.min = none) (h2 : o.max = none)
    (a : ℚ) (hshape : (isMinus = true ∧ a = -w) ∨ (isMinus = false ∧ a = w)) :
    makeTickInfo isLineChart (val t) (val a) (val a) (val w) (val w) isMinus o =
      some ⟨⟨nan, nan⟩, val 0, val 0, []⟩ := by
  have hao : ∀ s : Scale, applyOptions s o = s := fun s => applyOptions_none s o h1 h2
  have hcs := calculateScale_self a
  have hne : ∀ x : JSN, jeqB nan x = false := by intro x; cases x <;> simp [jeqB]
  have hkey : ∀ z : ℚ, (match normalizeStep (getScaleStep ⟨val z, val z⟩ (val t)) with
      | none => (none : Option TickInfo)
      | some step =>
          let smin := normalizeMin (val z) step
          let smax := recomputeScaleMax smin step (val t)
          let smax2 := extendScaleMax (val z) smax step
          let smax3 :=
            if o.max.isNone && jeqB smax2 (val w) then jadd smax2 step else smax2
          let smin2 :=
            if (isLineChart || jgtB (val w) (val 0)) && o.min.isNone &&
               jeqB smin (val w) then jsub smin step
            else smin
          let tickInfo : TickInfo := ⟨⟨smin2, smax3⟩, step, val t, []⟩
          let tickInfo := minimizeTickScale (val w) (val w) tickInfo o
          some (divideTickStep tickInfo (val t))) =
        some ⟨⟨nan, nan⟩, val 0, val 0, []⟩ := by
    intro z
    have hst : getScaleStep ⟨val z, val z⟩ (val t) = val 0 := by
      unfold getScaleStep
      simp only [jsub_val, sub_self]
      rw [jdiv_val _ _ (sub_ne_zero.mpr ht), zero_div]
    split
    · next heq =>
        rw [hst, normalizeStep_zero] at heq
        cases heq
    · next step heq =>
        rw [hst, normalizeStep_zero] at heq
        have hv : val 0 = step := Option.some.inj heq
        subst hv
        simp only [normalizeMin_zero, recomputeScaleMax_nan, extendScaleMax_nan, hne,
          Bool.and_false, Bool.false_eq_true, if_false]
        rw [minimizeTickScale_deg w t o h1 h2, divideTickStep_deg]
  rcases hshape with ⟨hm, ha⟩ | ⟨hm, ha⟩ <;> subst hm <;> subst ha
  · simpa only [makeTickInfo, hcs, hao, if_true, jneg_val, neg_neg] using hkey (-(-w))
  · simpa only [makeTickInfo, hcs, hao, Bool.false_eq_true, if_false] using hkey a

theorem getComparingValue_nan (s mn mx : JSN) :
    getComparingValue ⟨nan, nan⟩ s mn mx = nan := by
  unfold getComparingValue
  have h1 : jsub nan mx = nan := by simp [jsub, jadd, jneg]
  have h2 : jsub mn nan = nan := by cases mn <;> simp [jsub, jadd, jneg]
  rw [h1, h2]
  simp [jabs, jadd, jmul]

theorem jgtB_nan_left (x : JSN) : jgtB nan x = false := by
  unfold jgtB
  cases x <;> simp [jltB]

theorem selectGo_nan (mn mx : JSN) :
    ∀ (rest : List TickInfo) (b : TickInfo), selectGo mn mx b nan rest = b := by
  intro rest
  induction rest with
  | nil => intro b; rfl
  | cons i is ih =>
      intro b
      rw [selectGo, if_neg (by simp [jgtB_nan_left]), ih]

theorem makeTickInfo_self_isSome (isLineChart : Bool) (x w : ℚ) (userMin userMax : JSN)
    (isMinus : Bool) (o : AxisOptions) (h1 : o.min = none) (h2 : o.max = none) :
    (makeTickInfo isLineChart (val x) (val w) (val w) userMin userMax isMinus o).isSome := by
  have hao : ∀ s : Scale, applyOptions s o = s := fun s => applyOptions_none s o h1 h2
  have hcs := calculateScale_self w
  have hns : ∀ z : ℚ, (normalizeStep (getScaleStep ⟨val z, val z⟩ (val x))).isSome := by
    intro z
    unfold getScaleStep
    simp only [jsub_val, sub_self]
    by_cases hx : x - 1 = 0
    · rw [hx, show jdiv (val 0) (val 0) = nan from by simp [jdiv]]
      decide
    · rw [jdiv_val _ _ hx, zero_div, normalizeStep_zero]
      rfl
  cases isMinus
  · simp only [makeTickInfo, hcs, hao, Bool.false_eq_true, if_false]
    obtain ⟨u, hu⟩ := Option.isSome_iff_exists.mp (hns w)
    split
    · next heq => rw [heq] at hu; cases hu
    · rfl
  · simp only [makeTickInfo, hcs, hao, if_true, jneg_val]
    obtain ⟨u, hu⟩ := Option.isSome_iff_exists.mp (hns (-w))
    split
    · next heq => rw [heq] at hu; cases hu
    · rfl

theorem makeOriginalTypeTickInfo_deg (K : ℚ) (hK : K ≠ 0) :
    makeOriginalTypeTickInfo ⟨⟨nan, nan⟩, val 0, val 0, []⟩ (val K) =
      ⟨⟨nan, nan⟩, val 0, val 0, []⟩ := by
  unfold makeOriginalTypeTickInfo
  split
  · rfl
  · unfold neDivision
    rw [show jdiv nan (val K) = nan from by simp [jdiv],
      jdiv_val 0 K hK, zero_div]
    rfl

theorem getTickInfoCandidates_deg (isLineChart : Bool) (w t : ℚ) (ht : t ≠ 1)
    (rest : List JSN) (hrest : ∀ x ∈ rest, ∃ q : ℚ, x = val q)
    (oc : AxisOptions) (h1 : oc.min = none) (h2 : oc.max = none) :
    ∃ cs, getTickInfoCandidates isLineChart (val w) (val w) (val t :: rest) oc =
      some (⟨⟨nan, nan⟩, val 0, val 0, []⟩ :: cs) := by
  simp only [getTickInfoCandidates]
  by_cases hw : w < 0
  · have hmb : (jltB (val w) (val 0) && jleB (val w) (val 0)) = true := by
      simp [hw, le_of_lt hw]
    simp only [hmb, if_true, jneg_val, List.mapM_cons]
    rw [makeTickInfo_deg isLineChart t w ht true oc h1 h2 (-w) (Or.inl ⟨rfl, rfl⟩)]
    have hsome : (rest.mapM (fun tc => makeTickInfo isLineChart tc (val (-w)) (val (-w))
        (val w) (val w) true oc)).isSome := by
      apply mapM_isSome
      intro x hx
      obtain ⟨q, rfl⟩ := hrest x hx
      exact makeTickInfo_self_isSome isLineChart q (-w) (val w) (val w) true oc h1 h2
    obtain ⟨cs, hcs⟩ := Option.isSome_iff_exists.mp hsome
    rw [hcs]
    exact ⟨cs, rfl⟩
  · have hmb : (jltB (val w) (val 0) && jleB (val w) (val 0)) = false := by
      simp [hw]
    simp only [hmb, Bool.false_eq_true, if_false, List.mapM_cons]
    rw [makeTickInfo_deg isLineChart t w ht false oc h1 h2 w (Or.inr ⟨rfl, rfl⟩)]
    have hsome : (rest.mapM (fun tc => makeTickInfo isLineChart tc (val w) (val w)
        (val w) (val w) false oc)).isSome := by
      apply mapM_isSome
      intro x hx
      obtain ⟨q, rfl⟩ := hrest x hx
      exact makeTickInfo_self_isSome isLineChart q w (val w) (val w) false oc h1 h2
    obtain ⟨cs, hcs⟩ := Option.isSome_iff_exists.mp hsome
    rw [hcs]
    exact ⟨cs, rfl⟩

/-- On all-equal data with no overrides, provided the dimension-derived
candidate tick-count list is nonempty and does not start with tick count `1`,
`_getTickInfo` returns (without error) the `NaN`-scale zero-step result. -/
theorem getTickInfo_deg (isLineChart isVertical : Bool) (v : ℚ) (d : ChartDimension)
    (t : ℚ) (rest : List JSN) (ht : t ≠ 1)
    (hhead : getCandidateTickCounts isVertical d = val t :: rest) :
    getTickInfo isLineChart isVertical (val v) (val v) d ⟨none, none, none⟩ =
      some ⟨⟨nan, nan⟩, val 0, val 0, []⟩ := by
  have hint : ∃ (w K : ℚ) (oc : AxisOptions),
      makeIntegerTypeInfo (val v) (val v) ⟨none, none, none⟩ = ⟨val w, val w, oc, val K⟩ ∧
      oc.min = none ∧ oc.max = none ∧ K ≠ 0 := by
    unfold makeIntegerTypeInfo
    split
    · exact ⟨v, 1, ⟨none, none, none⟩, rfl, rfl, rfl, one_ne_zero⟩
    · refine ⟨v * (10 : ℚ) ^ max (underPointLength (val v)) (underPointLength (val v)),
        (10 : ℚ) ^ max (underPointLength (val v)) (underPointLength (val v)),
        ⟨none, none, none⟩, ?_, rfl, rfl, by positivity⟩
      simp [findMultipleNum2]
  obtain ⟨w, K, oc, hint, hoc1, hoc2, hK⟩ := hint
  have hrest : ∀ x ∈ rest, ∃ q : ℚ, x = val q := by
    intro x hx
    have : x ∈ getCandidateTickCounts isVertical d := by
      rw [hhead]
      exact List.mem_cons_of_mem _ hx
    unfold getCandidateTickCounts at this
    exact neRange_val_one_mem _ _ x this
  have htc : tickCountsOf ⟨none, none, none⟩ isVertical d = val t :: rest := by
    unfold tickCountsOf
    exact hhead
  obtain ⟨cs, hcands⟩ := getTickInfoCandidates_deg isLineChart w t ht rest hrest oc hoc1 hoc2
  have hsel : selectTickInfo (val w) (val w)
      ((⟨⟨nan, nan⟩, val 0, val 0, []⟩ : TickInfo) :: cs) =
      some ⟨⟨nan, nan⟩, val 0, val 0, []⟩ := by
    unfold selectTickInfo
    dsimp only
    rw [getComparingValue_nan, selectGo_nan]
  simp only [getTickInfo, hint, htc, hcands, hsel]
  rw [makeOriginalTypeTickInfo_deg K hK]

/-! ### Shared facts used by the claim theorems -/

theorem formatLabels_length (fns : List (JSN → JSN)) (ls : List JSN) :
    (formatLabels fns ls).length = ls.length := by
  unfold formatLabels
  cases fns with
  | nil => rfl
  | cons f fs => simp

/-- A truthy (in particular nonzero) `start < stop` one-step range is
non-empty. -/
theorem neRange_one_ne_nil (a b : ℚ) (hab : a < b) :
    neRange (val a) (val b) (val 1) ≠ [] := by
  unfold neRange
  norm_num [jtruthy]
  exact rangeAsc_ne_nil a b 1 one_pos hab

/-- A multiple of ten at least ten is a fixed point of `_normalizeStep`:
its `standard` is `10` and its remainder mod `10` vanishes. -/
theorem normalizeStep_of_mult10 (r : ℚ) (k : ℤ) (hrk : r = 10 * k) (hr : 10 ≤ r) :
    normalizeStep (val r) = some (val r) := by
  have h0 : ¬ r = 0 := by intro h; rw [h] at hr; norm_num at hr
  have hstd : normalizeStandard (val r) = val 10 := by
    unfold normalizeStandard
    simp only [jltB_val, decide_eq_true_eq]
    rw [if_neg (by linarith : ¬ r < 1), if_neg (by linarith : ¬ r < 2),
      if_neg (by linarith : ¬ r < 5)]
  have hmod : neMod (val r) (val 10) = val 0 := by
    unfold neMod
    rw [jrem_val r 10 (by norm_num)]
    have hdiv : r / 10 = (k : ℚ) := by rw [hrk]; field_simp
    rw [hdiv, jsTrunc_intCast]
    congr 1
    rw [hrk]; ring
  have hdef : normalizeStep (val r) = normalizeStepAux (r.den + 1 + 1) (val r) := rfl
  rw [hdef, normalizeStepAux]
  simp only [jeqB_val, decide_eq_true_eq]
  rw [if_neg h0]
  simp only [hstd, hmod, jltB_val, decide_eq_true_eq]
  rw [if_neg (by norm_num : ¬ (10 : ℚ) < 1)]
  simp only [jgtB_val, decide_eq_true_eq]
  rw [if_neg (by norm_num : ¬ (0 : ℚ) < 0)]
  simp [neAddition]

/-- `_normalizeStep` on a step at least ten lands exactly on a multiple of
ten no smaller than ten. -/
theorem normalizeStep_ge10 (q : ℚ) (hq : 10 ≤ q) :
    ∃ (k : ℤ) (r : ℚ), r = 10 * k ∧ 10 ≤ r ∧ normalizeStep (val q) = some (val r) := by
  have h0 : ¬ q = 0 := by intro h; rw [h] at hq; norm_num at hq
  have hstd : normalizeStandard (val q) = val 10 := by
    unfold normalizeStandard
    simp only [jltB_val, decide_eq_true_eq]
    rw [if_neg (by linarith : ¬ q < 1), if_neg (by linarith : ¬ q < 2),
      if_neg (by linarith : ¬ q < 5)]
  have hq10 : (0 : ℚ) ≤ q / 10 := by positivity
  have htr : jsTrunc (q / 10) = ⌊q / 10⌋ := jsTrunc_of_nonneg hq10
  set m : ℚ := q - 10 * (⌊q / 10⌋ : ℚ) with hm
  have hmod : neMod (val q) (val 10) = val m := by
    unfold neMod
    rw [jrem_val q 10 (by norm_num), htr]
  have hqt : q = 10 * (q / 10) := by ring
  have hm0 : 0 ≤ m := by
    have hfl : (⌊q / 10⌋ : ℚ) ≤ q / 10 := Int.floor_le (q / 10)
    rw [hm]; linarith
  have hmlt : m < 10 := by
    have hfl : q / 10 < (⌊q / 10⌋ : ℚ) + 1 := Int.lt_floor_add_one (q / 10)
    rw [hm]; linarith
  have hcomp : normalizeStep (val q) = some (neAddition (val q)
      (if jgtB (val m) (val 0) then jsub (val 10) (val m) else val 0)) := by
    have hdef : normalizeStep (val q) = normalizeStepAux (q.den + 1 + 1) (val q) := rfl
    rw [hdef, normalizeStepAux]
    simp only [jeqB_val, decide_eq_true_eq]
    rw [if_neg h0]
    simp only [hstd, hmod, jltB_val, decide_eq_true_eq]
    rw [if_neg (by norm_num : ¬ (10 : ℚ) < 1)]
  by_cases hgt : 0 < m
  · refine ⟨⌊q / 10⌋ + 1, q + (10 - m), ?_, by linarith, ?_⟩
    · push_cast
      rw [hm]; ring
    · rw [hcomp]
      rw [if_pos (by simpa [jgtB_val] using hgt)]
      simp [neAddition]
  · have hm0' : m = 0 := le_antisymm (not_lt.mp hgt) hm0
    refine ⟨⌊q / 10⌋, q, ?_, hq, ?_⟩
    · have := hm
      rw [hm0'] at this
      linarith
    · rw [hcomp]
      rw [if_neg (by simpa [jgtB_val] using hgt)]
      simp [neAddition]

/-! ### The claims -/

/-- C1 (corrected): without a min/max override, every tick-info *candidate*
built for a tick count of at least two on a non-degenerate range contains the
data: `scale.min ≤ dataMin` and `scale.max ≤ dataMax` fails for no candidate.
The original claim over the whole pipeline is refuted by
`C1_escape_counterexample`: when every candidate tick count is below two the
step becomes infinite and the final `scale.max` is `NaN`, which contains no
data point. -/
theorem C1_candidates_contain_data (isLineChart : Bool) (ua ub : ℚ) (tcs : List JSN)
    (o : AxisOptions) (cands : List TickInfo) (hlt : ua < ub)
    (htcs : ∀ tc ∈ tcs, ∃ n : ℕ, tc = val (n : ℚ) ∧ 2 ≤ n)
    (h1 : o.min = none) (h2 : o.max = none)
    (h : getTickInfoCandidates isLineChart (val ua) (val ub) tcs o = some cands) :
    ∀ ti ∈ cands, ∃ mn mx : ℚ, ti.scale = ⟨val mn, val mx⟩ ∧ mn ≤ ua ∧ ub ≤ mx := by
  intro ti hti
  obtain ⟨mn, mx, r, hsc, hmn, hmx, _, _⟩ :=
    getTickInfoCandidates_contains isLineChart ua ub hlt tcs htcs o h1 h2 cands h ti hti
  exact ⟨mn, mx, hsc, hmn, hmx⟩

/-- C1 witness: the single candidate for tick count `3` on data `1..2`
contains the data. -/
theorem C1_witness :
    ∃ mn mx : ℚ,
      (⟨⟨val 0, val 3⟩, val 1, val 4, [val 0, val 1, val 2, val 3]⟩ : TickInfo).scale =
        ⟨val mn, val mx⟩ ∧ mn ≤ 1 ∧ 2 ≤ mx :=
  C1_candidates_contain_data false 1 2 [val 3] ⟨none, none, none⟩
    [⟨⟨val 0, val 3⟩, val 1, val 4, [val 0, val 1, val 2, val 3]⟩]
    (by norm_num)
    (by intro tc htc
        rw [List.mem_singleton] at htc
        subst htc
        exact ⟨3, by norm_num, by norm_num⟩)
    rfl rfl (by decide)
    ⟨⟨val 0, val 3⟩, val 1, val 4, [val 0, val 1, val 2, val 3]⟩
    (List.mem_singleton_self _)

/-- C1 counterexample: data `1..2` on a 150-pixel-high vertical axis yields
the sole candidate tick count `1`, a division by zero in `getScaleStep`, an
infinite step and a final scale whose max is `NaN` — `dataMax ≤ scale.max`
does not hold. -/
theorem C1_escape_counterexample :
    getTickInfo false true (val 1) (val 2) ⟨1000, 150⟩ ⟨none, none, none⟩ =
      some ⟨⟨val 0, nan⟩, inf true, val 0, []⟩ ∧
    jleB (val 2) nan = false := ⟨by decide, rfl⟩

/-- C2 (corrected): a truthy min/max override is substituted verbatim for the
corresponding bound when `_makeTickInfo` applies the options, but the
subsequent normalization steps may move the bound again, so the *final*
scale's bound need not equal the override; the spec's mixed-sign scenario
(min=-8000, max=12000) is refuted by `C2_override_counterexample`. -/
theorem C2_applyOptions_substitutes (s : Scale) (o : AxisOptions) (m M : JSN)
    (hm : o.min = some m) (hM : o.max = some M)
    (hmt : jtruthy m = true) (hMt : jtruthy M = true) :
    applyOptions s o = ⟨m, M⟩ := by
  simp [applyOptions, hm, hM, hmt, hMt]

/-- C2 witness: the overrides `-8000` and `12000` do replace both bounds at
the substitution step. -/
theorem C2_witness :
    applyOptions ⟨val 1, val 2⟩ ⟨some (val (-8000)), some (val 12000), none⟩ =
      ⟨val (-8000), val 12000⟩ :=
  C2_applyOptions_substitutes ⟨val 1, val 2⟩
    ⟨some (val (-8000)), some (val 12000), none⟩
    (val (-8000)) (val 12000) rfl rfl (by decide) (by decide)

/-- C2 counterexample: the spec's scenario C. With data `-5000..10000`,
`options = {min: -8000, max: 12000, tickCount: 5}`, the final scale is
`(-10000, 15000)`, not `(-8000, 12000)`: `_normalizeMin` and the
max-recomputation move both overridden bounds. -/
theorem C2_override_counterexample :
    getTickInfo false true (val (-5000)) (val 10000) ⟨1000, 500⟩
      ⟨some (val (-8000)), some (val 12000), some (val 5)⟩ =
      some ⟨⟨val (-10000), val 15000⟩, val 5000, val 6,
        [val (-10000), val (-5000), val 0, val 5000, val 10000, val 15000]⟩ ∧
    ((-10000 : ℚ) ≠ -8000 ∧ (15000 : ℚ) ≠ 12000) := ⟨by decide, by norm_num⟩

/-- C3 (corrected): the candidate tick counts are non-empty whenever the base
pixel size is nonnegative; there is no `{1}` fallback in the code, and for a
negative base size (height below the 80-pixel title allowance) the candidate
list is empty — see `C3_empty_counterexample`. -/
theorem C3_nonempty_of_base_nonneg (isVertical : Bool) (d : ChartDimension)
    (h : 0 ≤ getBaseSize isVertical d) :
    getCandidateTickCounts isVertical d ≠ [] := by
  have h60 : (0 : ℚ) ≤ getBaseSize isVertical d / 60 := div_nonneg h (by norm_num)
  have h40 : (0 : ℚ) ≤ getBaseSize isVertical d / 40 := div_nonneg h (by norm_num)
  have hmono : getBaseSize isVertical d / 60 ≤ getBaseSize isVertical d / 40 := by
    set bs := getBaseSize isVertical d
    linarith
  have hfl : ⌊getBaseSize isVertical d / 60⌋ ≤ ⌊getBaseSize isVertical d / 40⌋ :=
    Int.floor_le_floor hmono
  have hkey : ((jsTrunc (getBaseSize isVertical d / MAX_PIXEL_STEP_SIZE) : ℤ) : ℚ) <
      ((jsTrunc (getBaseSize isVertical d / MIN_PIXEL_STEP_SIZE) + 1 : ℤ) : ℚ) := by
    rw [show MAX_PIXEL_STEP_SIZE = (60 : ℚ) from rfl,
      show MIN_PIXEL_STEP_SIZE = (40 : ℚ) from rfl,
      jsTrunc_of_nonneg h60, jsTrunc_of_nonneg h40]
    exact_mod_cast Int.lt_add_one_iff.mpr hfl
  simp only [getCandidateTickCounts]
  exact neRange_one_ne_nil _ _ hkey

/-- C3 witness: a 500-pixel-high vertical axis has candidates. -/
theorem C3_witness : getCandidateTickCounts true ⟨1000, 500⟩ ≠ [] :=
  C3_nonempty_of_base_nonneg true ⟨1000, 500⟩
    (by norm_num [getBaseSize, CHART_TITLE_HEIGHT])

/-- C3 counterexample: a 30-pixel-high vertical axis (base size `-50`) has an
*empty* candidate list — `ne.util.range` returns `[]` for `start > stop` —
and no `{1}` fallback exists in `_getCandidateTickCounts`. -/
theorem C3_empty_counterexample : getCandidateTickCounts true ⟨1000, 30⟩ = [] := by decide

/-- C4 (confirmed): `labels.length == tickCount` for every candidate
`_makeTickInfo` produces and for the final output of `_getTickInfo`
(`_divideTickStep` keeps the invariant it establishes, and
`_makeOriginalTypeTickInfo` and `_formatLabels` preserve the label count). -/
theorem C4_labels_match_tickCount :
    (∀ (isLineChart : Bool) (tickCount mn mx userMin userMax : JSN) (isMinus : Bool)
        (o : AxisOptions) (ti : TickInfo),
        makeTickInfo isLineChart tickCount mn mx userMin userMax isMinus o = some ti →
        ti.tickCount = val ((ti.labels).length : ℚ)) ∧
    (∀ (isLineChart isVertical : Bool) (mn mx : JSN) (d : ChartDimension)
        (o : AxisOptions) (ti : TickInfo),
        getTickInfo isLineChart isVertical mn mx d o = some ti →
        ti.tickCount = val ((ti.labels).length : ℚ)) ∧
    (∀ (fns : List (JSN → JSN)) (ls : List JSN),
        (formatLabels fns ls).length = ls.length) :=
  ⟨fun a b c d e f g h i hm => makeTickInfo_count a b c d e f g h i hm,
   fun a b c d e f g hm => getTickInfo_count a b c d e f g hm,
   formatLabels_length⟩

/-- C4 witness: the output for data `1..12` with tick-count override `5`
carries four labels and `tickCount = 4`. -/
theorem C4_witness :
    (⟨⟨val 0, val 15⟩, val 5, val 4, [val 0, val 5, val 10, val 15]⟩ : TickInfo).tickCount =
      val ((([val 0, val 5, val 10, val 15] : List JSN)).length : ℚ) :=
  C4_labels_match_tickCount.2.1 false true (val 1) (val 12) ⟨1000, 500⟩
    ⟨none, none, some (val 5)⟩
    ⟨⟨val 0, val 15⟩, val 5, val 4, [val 0, val 5, val 10, val 15]⟩ (by decide)

/-- C5 (corrected): `_normalizeStep` is *not* idempotent (`1 ↦ 2 ↦ 5`, see
`C5_not_idempotent_counterexample`); it is a fixed point at `0`, and from any
step of at least ten onward one application lands on a multiple of ten that
further applications leave unchanged. -/
theorem C5_normalize_stabilizes :
    normalizeStep (val 0) = some (val 0) ∧
    ∀ q : ℚ, 10 ≤ q → ∃ r : ℚ,
      normalizeStep (val q) = some (val r) ∧ normalizeStep (val r) = some (val r) := by
  constructor
  · exact normalizeStep_zero
  · intro q hq
    obtain ⟨k, r, hrk, hr10, hns⟩ := normalizeStep_ge10 q hq
    exact ⟨r, hns, normalizeStep_of_mult10 r k hrk hr10⟩

/-- C5 witness: `35` normalizes to a step that renormalizes to itself. -/
theorem C5_witness :
    ∃ r : ℚ, normalizeStep (val 35) = some (val r) ∧ normalizeStep (val r) = some (val r) :=
  C5_normalize_stabilizes.2 35 (by norm_num)

/-- C5 counterexample: `normalizeStep 1 = 2` but `normalizeStep 2 = 5`, so
composing the map with itself differs from one application at `x = 1`. -/
theorem C5_not_idempotent_counterexample :
    (normalizeStep (val 1)).bind normalizeStep ≠ normalizeStep (val 1) ∧
    normalizeStep (val 1) = some (val 2) ∧
    (normalizeStep (val 1)).bind normalizeStep = some (val 5) :=
  ⟨by decide, by decide, by decide⟩

/-- C6 (corrected): on a degenerate range with no overrides the computation
runs without error *only if* at least one candidate tick count exists (a
30-pixel-high chart throws instead, see `C6_throw_counterexample`); when the
first candidate tick count is not `1`, the result is deterministically the
zero-step axis `{scale: (NaN, NaN), step: 0, tickCount: 0, labels: []}`;
conversely a zero step on a tick count of at least two forces the degenerate
all-equal-value case. -/
theorem C6_degenerate_range :
    (∀ (isLineChart isVertical : Bool) (v : ℚ) (d : ChartDimension)
        (t : ℚ) (rest : List JSN), t ≠ 1 →
        getCandidateTickCounts isVertical d = val t :: rest →
        getTickInfo isLineChart isVertical (val v) (val v) d ⟨none, none, none⟩ =
          some ⟨⟨nan, nan⟩, val 0, val 0, []⟩) ∧
    (∀ (isLineChart : Bool) (n a b ua ub : ℚ) (isMinus : Bool) (o : AxisOptions)
        (ti : TickInfo), 2 ≤ n → o.min = none → o.max = none →
        ((isMinus = true ∧ a = -ub ∧ b = -ua) ∨ (isMinus = false ∧ a = ua ∧ b = ub)) →
        ua ≤ ub →
        makeTickInfo isLineChart (val n) (val a) (val b) (val ua) (val ub) isMinus o =
          some ti →
        ti.step = val 0 → ua = ub) := by
  constructor
  · intro isLineChart isVertical v d t rest ht hhead
    exact getTickInfo_deg isLineChart isVertical v d t rest ht hhead
  · intro isLineChart n a b ua ub isMinus o ti hn h1 h2 hshape hle hmk hstep
    by_contra hne
    have hlt : ua < ub := lt_of_le_of_ne hle hne
    obtain ⟨ti', mn, mx, r, hmk', hsc, hmn, hmx, hst, hr⟩ :=
      makeTickInfo_spec isLineChart n a b ua ub hn isMinus o h1 h2 hshape hlt
    rw [hmk] at hmk'
    have hti := Option.some.inj hmk'
    subst hti
    have hval : val 0 = val r := hstep.symm.trans hst
    have h0r : (0 : ℚ) = r := JSN.val.inj hval
    linarith

/-- C6 witness: all values equal to `7` on a 400-pixel-high chart give the
zero-step axis. -/
theorem C6_witness :
    getTickInfo false true (val 7) (val 7) ⟨1000, 400⟩ ⟨none, none, none⟩ =
      some ⟨⟨nan, nan⟩, val 0, val 0, []⟩ :=
  C6_degenerate_range.1 false true 7 ⟨1000, 400⟩ 5 [val 6, val 7, val 8]
    (by norm_num) (by decide)

/-- C6 counterexample: a degenerate range on a 30-pixel-high chart has no
candidate tick counts, `candidates[0]` is `undefined` and `_selectTickInfo`
throws — the computation does *not* always complete. -/
theorem C6_throw_counterexample :
    getTickInfo false true (val 5) (val 5) ⟨1000, 30⟩ ⟨none, none, none⟩ = none := by decide

/-- C7 (corrected): there is no input validation at all: the empty values
list flows through `Math.min/max` (yielding `±Infinity`/`NaN` downstream) and
`_setValueAxisData` fabricates the axis
`{tickCount: 0, labels: [], scale: (NaN, NaN)}` instead of failing. -/
theorem C7_no_fail_fast :
    setValueAxisData false true [] ⟨1000, 400⟩ [] ⟨none, none, none⟩ =
      some ⟨val 0, [], ⟨nan, nan⟩⟩ := by decide

/-- C7 counterexample: on the empty values list the computation returns a
value — it does not fail. -/
theorem C7_returns_counterexample :
    (setValueAxisData false true [] ⟨1000, 400⟩ [] ⟨none, none, none⟩).isSome = true := by
  decide

/-- C8 (corrected): the comparing value is exactly
`(|scale.max - dataMax| + |dataMin - scale.min|) * 10^decimalPlaces(step)`,
and for candidates whose comparing values are all (rational) numbers the fold
selects the first candidate attaining the minimum — ties keep the earlier
candidate. The unrestricted claim is refuted by `C8_nan_counterexample`: a
`NaN` comparing value (degenerate candidates) is never replaced, because
`minValue > compareValue` is false for `NaN`, so a non-minimal candidate can
win. -/
theorem C8_selection_minimal :
    (∀ (smn smx st mnq mxq : ℚ),
        getComparingValue ⟨val smn, val smx⟩ (val st) (val mnq) (val mxq) =
          val ((|smx - mxq| + |mnq - smn|) * 10 ^ underPointLengthQ st)) ∧
    (∀ (mn mx : JSN) (c : TickInfo) (cs : List TickInfo),
        (∀ ti ∈ c :: cs, ∃ q : ℚ, getComparingValue ti.scale ti.step mn mx = val q) →
        ∃ (r : TickInfo) (w : ℚ) (pre post : List TickInfo),
          selectTickInfo mn mx (c :: cs) = some r ∧
          getComparingValue r.scale r.step mn mx = val w ∧
          (∀ ti ∈ c :: cs, ∃ q : ℚ,
            getComparingValue ti.scale ti.step mn mx = val q ∧ w ≤ q) ∧
          c :: cs = pre ++ r :: post ∧
          (∀ d ∈ pre, ∃ q : ℚ,
            getComparingValue d.scale d.step mn mx = val q ∧ w < q)) := by
  constructor
  · intro smn smx st mnq mxq
    simp [getComparingValue, underPointLength]
  · intro mn mx c cs hall
    obtain ⟨v, hv⟩ := hall c (List.mem_cons_self c cs)
    have hall' : ∀ ti ∈ cs, ∃ q : ℚ, getComparingValue ti.scale ti.step mn mx = val q :=
      fun ti hti => hall ti (List.mem_cons_of_mem c hti)
    obtain ⟨r, w, hsel, hcw, hwv, hallw, hcase⟩ := selectGo_first_min mn mx cs c v hv hall'
    have hst : selectTickInfo mn mx (c :: cs) = some r := by
      unfold selectTickInfo
      dsimp only
      rw [hv, hsel]
    rcases hcase with rfl | ⟨hwlt, pre, post, hsplit, hpre⟩
    · refine ⟨r, w, [], cs, hst, hcw, ?_, rfl, ?_⟩
      · intro ti hti
        rcases List.mem_cons.mp hti with rfl | hti'
        · exact ⟨w, hcw, le_refl w⟩
        · exact hallw ti hti'
      · intro d hd
        cases hd
    · refine ⟨r, w, c :: pre, post, hst, hcw, ?_, ?_, ?_⟩
      · intro ti hti
        rcases List.mem_cons.mp hti with rfl | hti'
        · exact ⟨v, hv, hwv⟩
        · exact hallw ti hti'
      · rw [hsplit]
        rfl
      · intro dd hdd
        rcases List.mem_cons.mp hdd with rfl | hdd'
        · exact ⟨v, hv, hwlt⟩
        · exact hpre dd hdd'

/-- C8 witness: on a singleton candidate list the fold returns it as the
(first) minimum. -/
theorem C8_witness :
    ∃ (r : TickInfo) (w : ℚ) (pre post : List TickInfo),
      selectTickInfo (val 0) (val 1)
        ((⟨⟨val 0, val 1⟩, val 1, val 2, []⟩ : TickInfo) :: []) = some r ∧
      getComparingValue r.scale r.step (val 0) (val 1) = val w ∧
      (∀ ti ∈ (⟨⟨val 0, val 1⟩, val 1, val 2, []⟩ : TickInfo) :: [],
        ∃ q : ℚ, getComparingValue ti.scale ti.step (val 0) (val 1) = val q ∧ w ≤ q) ∧
      (⟨⟨val 0, val 1⟩, val 1, val 2, []⟩ : TickInfo) :: [] = pre ++ r :: post ∧
      (∀ d ∈ pre, ∃ q : ℚ,
        getComparingValue d.scale d.step (val 0) (val 1) = val q ∧ w < q) :=
  C8_selection_minimal.2 (val 0) (val 1) ⟨⟨val 0, val 1⟩, val 1, val 2, []⟩ []
    (by intro ti hti
        rcases List.mem_cons.mp hti with rfl | h
        · exact ⟨0, by decide⟩
        · cases h)

/-- C8 counterexample: a first candidate with a `NaN` comparing value is
selected over a second candidate with comparing value `0`; the selected
candidate's comparing value is not `≤` the other's. -/
theorem C8_nan_counterexample :
    selectTickInfo (val 0) (val 1)
      [⟨⟨nan, nan⟩, val 1, val 1, []⟩, ⟨⟨val 0, val 1⟩, val 1, val 2, []⟩] =
      some ⟨⟨nan, nan⟩, val 1, val 1, []⟩ ∧
    jleB (getComparingValue ⟨nan, nan⟩ (val 1) (val 0) (val 1))
      (getComparingValue ⟨val 0, val 1⟩ (val 1) (val 0) (val 1)) = false :=
  ⟨by decide, by decide⟩

/-- C9 (corrected): a truthy tick-count override does make the candidate tick
counts exactly the singleton `{override}`, but the final `tickCount` need not
equal the override: `_minimizeTickScale` tightens overshooting bounds back
toward the data and then sets `tickCount = labels.length`, which can shrink
it (see `C9_minimize_counterexample`, where the override `5` yields
`tickCount 4`; the step `5` is odd there, so `_divideTickStep` — which would
halve the *step* and grow the label count — is a no-op). -/
theorem C9_tickCounts_singleton (o : AxisOptions) (tc : JSN) (isVertical : Bool)
    (d : ChartDimension) (h : o.tickCount = some tc) (htr : jtruthy tc = true) :
    tickCountsOf o isVertical d = [tc] := by
  simp [tickCountsOf, h, htr]

/-- C9 witness: the override `5` is the sole candidate tick count. -/
theorem C9_witness :
    tickCountsOf ⟨none, none, some (val 5)⟩ false ⟨100, 100⟩ = [val 5] :=
  C9_tickCounts_singleton ⟨none, none, some (val 5)⟩ (val 5) false ⟨100, 100⟩
    rfl (by decide)

/-- C9 counterexample: data `1..12` with `options.tickCount = 5` produces a
final `tickCount` of `4`, not `5`: `_minimizeTickScale` pulls the max from
`20` down to `15` and resets `tickCount` to the four remaining labels (the
step stays `5`, so `_divideTickStep` plays no part). -/
theorem C9_minimize_counterexample :
    getTickInfo false true (val 1) (val 12) ⟨1000, 500⟩ ⟨none, none, some (val 5)⟩ =
      some ⟨⟨val 0, val 15⟩, val 5, val 4, [val 0, val 5, val 10, val 15]⟩ ∧
    (4 : ℚ) ≠ 5 := ⟨by decide, by norm_num⟩

/-- C10 (confirmed): `_normalizeStep` never decreases a nonnegative step. -/
theorem C10_normalize_monotone (q : ℚ) (hq : 0 ≤ q) :
    ∃ r : ℚ, normalizeStep (val q) = some (val r) ∧ q ≤ r := by
  rcases eq_or_lt_of_le hq with heq | hlt
  · exact ⟨0, by rw [← heq]; exact normalizeStep_zero, heq.ge⟩
  · exact normalizeStep_pos q hlt

/-- C10 witness: `3` normalizes upward. -/
theorem C10_witness :
    ∃ r : ℚ, normalizeStep (val 3) = some (val r) ∧ 3 ≤ r :=
  C10_normalize_monotone 3 (by norm_num)
